import Mathlib

/-!
Verification of the aibase-to-feishu news pusher (push_news.py) against its
design document.  The script is modelled shallowly: every pure computation of
the script is translated to an executable Lean definition, the two network
calls (page fetch, webhook post) and the state-file read are replaced by
explicit inputs describing their outcome, and the run of main() becomes a
function from those inputs to the observable outcome (exit behaviour, items
delivered, final persisted state).
-/

namespace PushNews

/-! ## Characters and whitespace -/

/-- Whitespace characters matched by the Python regex class backslash-s and by
str.strip (the ASCII subset; the rarer Unicode whitespace code points are not
modelled). -/
def isSpaceChar (c : Char) : Bool :=
  c == ' ' || c == '\t' || c == '\n' || c == '\r' || c == '\x0b' || c == '\x0c'

/-- Replace every maximal run of whitespace by a single space, as
re.sub of a whitespace run to one space does.  The flag records whether the
previous character was part of a whitespace run. -/
def squeezeAux : Bool → List Char → List Char
  | _, [] => []
  | inWS, c :: cs =>
    if isSpaceChar c then
      if inWS then squeezeAux true cs else ' ' :: squeezeAux true cs
    else c :: squeezeAux false cs

def squeeze (l : List Char) : List Char := squeezeAux false l

/-- Python str.lstrip. -/
def stripL (l : List Char) : List Char := l.dropWhile isSpaceChar

/-- Python str.rstrip. -/
def stripR (l : List Char) : List Char := (l.reverse.dropWhile isSpaceChar).reverse

/-- Python str.strip. -/
def stripBoth (l : List Char) : List Char := stripR (stripL l)

/-- Python slicing l[:n] with an int bound (a negative bound counts from the
end). -/
def pyTake (n : Int) (l : List α) : List α :=
  if 0 ≤ n then l.take n.toNat else l.take (l.length - (-n).toNat)

/-- Python str.strip() on a whole string. -/
def pyStrip (s : String) : String := String.mk (stripBoth s.toList)

/-! ## Title normalization (push_news.py lines 30-38) -/

/-- Direct model of normalize_title, with the configured TITLE_MAX_LEN passed
explicitly.  Lengths count Unicode code points exactly as Python len does. -/
def normalize_title (maxLen : Int) (raw : String) : String :=
  let t0 := stripBoth (squeeze raw.toList)
  let t1 := if t0.contains '。' = true ∧ maxLen < (t0.length : Int) then
      stripBoth (t0.takeWhile (fun c => !(c == '。'))) else t0
  let t2 := if t1.contains '，' = true ∧ maxLen < (t1.length : Int) then
      stripBoth (t1.takeWhile (fun c => !(c == '，'))) else t1
  let t3 := if maxLen < (t2.length : Int) then
      stripR (pyTake (maxLen - 1) t2) ++ ['…'] else t2
  String.mk t3

/-- The prefix of l before the first occurrence of sep, i.e. Python
split(sep, 1)[0] for a one-character separator. -/
def cutBefore (sep : Char) (l : List Char) : List Char :=
  l.takeWhile (fun c => !(c == sep))

/-- The truncation policy as worded in the specification: collapse whitespace
runs to single spaces and trim the ends; then, if the title still exceeds the
configured maximum and contains a fullwidth period, cut it at the first
fullwidth period; next, if it still exceeds the maximum and contains a
fullwidth comma, cut it at the first fullwidth comma; finally, if it is still
over length, hard-truncate it to maxLen - 1 characters and append the ellipsis
marker.  Each cut yields a normalized title again, so its ends are trimmed
(the spec folds this into the initial trimming rule), and the hard truncation
likewise drops trailing whitespace before the ellipsis. -/
def normalizeTitleClaim (maxLen : Int) (raw : String) : String :=
  let base := stripBoth (squeeze raw.toList)
  let afterPeriod :=
    if base.contains '。' = true ∧ maxLen < (base.length : Int) then
      stripBoth (cutBefore '。' base)
    else base
  let afterComma :=
    if afterPeriod.contains '，' = true ∧ maxLen < (afterPeriod.length : Int) then
      stripBoth (cutBefore '，' afterPeriod)
    else afterPeriod
  if maxLen < (afterComma.length : Int) then
    String.mk (stripR (pyTake (maxLen - 1) afterComma) ++ ['…'])
  else String.mk afterComma

lemma string_mk_ite (c : Prop) [Decidable c] (a b : List Char) :
    String.mk (if c then a else b) = if c then String.mk a else String.mk b := by
  split <;> rfl

/-- C2: the normalization collapses whitespace and trims, then applies the
period-cut, the comma-cut and the hard truncation in this order, each step
re-checking the configured maximum length, and on the spec's example title
with maximum length 10 it returns the prefix before the first fullwidth
period. -/
theorem normalize_title_matches_claim :
    (∀ (maxLen : Int) (raw : String),
        normalize_title maxLen raw = normalizeTitleClaim maxLen raw) ∧
    normalize_title 10 "今天天气很好。但是明天可能下雨，所以记得带伞" = "今天天气很好" := by
  constructor
  · intro maxLen raw
    dsimp only [normalize_title, normalizeTitleClaim, cutBefore]
    exact string_mk_ite _ _ _
  · decide

/-! ## Decimal strings: Python str(int) and int(str) -/

/-- Decimal digits of n, least significant first; the first argument is fuel
(n itself is enough fuel, since a number has at most as many digits as its
value). -/
def natToDigitsRevAux : Nat → Nat → List Char
  | 0, _ => []
  | _ + 1, 0 => []
  | fuel + 1, n + 1 => Nat.digitChar ((n + 1) % 10) :: natToDigitsRevAux fuel ((n + 1) / 10)

/-- Decimal digits of n, most significant first. -/
def natDigits (n : Nat) : List Char :=
  if n = 0 then ['0'] else (natToDigitsRevAux n n).reverse

/-- Python str() of a nonnegative int. -/
def pyStrOfNat (n : Nat) : String := String.mk (natDigits n)

/-- Python str() of an int. -/
def pyStrInt (n : Int) : String :=
  if n < 0 then String.mk ('-' :: natDigits n.natAbs) else pyStrOfNat n.toNat

def digitVal (c : Char) : Nat := c.toNat - 48

/-- Numeric value of a nonempty all-digit string, as Python int parsing of the
digit run does. -/
def digitsToNat (l : List Char) : Option Nat :=
  if l ≠ [] ∧ l.all Char.isDigit = true then
    some (l.foldl (fun a c => 10 * a + digitVal c) 0)
  else none

/-- Model of Python int(str): optional surrounding whitespace, an optional
sign, then a nonempty run of ASCII decimal digits; anything else raises
ValueError, modelled as none.  (Python additionally accepts underscores
between digits and non-ASCII decimal digits; such inputs are outside this
model.) -/
def pyIntOfString (s : String) : Option Int :=
  match stripBoth s.toList with
  | [] => none
  | c :: rest =>
    if c = '-' then (digitsToNat rest).map (fun m => -(Int.ofNat m))
    else if c = '+' then (digitsToNat rest).map Int.ofNat
    else (digitsToNat (c :: rest)).map Int.ofNat

/-- The sort key Python computes for each entry of the seen set: int(s).
Only used on strings where the parse succeeds. -/
def pyIntKey (s : String) : Int := (pyIntOfString s).getD 0

lemma digitChar_isDigit {r : Nat} (h : r < 10) : (Nat.digitChar r).isDigit = true := by
  interval_cases r <;> decide

lemma digitVal_digitChar {r : Nat} (h : r < 10) : digitVal (Nat.digitChar r) = r := by
  interval_cases r <;> decide

lemma natToDigitsRevAux_all_digits :
    ∀ fuel n, (natToDigitsRevAux fuel n).all Char.isDigit = true := by
  intro fuel
  induction fuel with
  | zero => intro n; rfl
  | succ f ih =>
    intro n
    cases n with
    | zero => rfl
    | succ m =>
      simp only [natToDigitsRevAux, List.all_cons, Bool.and_eq_true]
      exact ⟨digitChar_isDigit (Nat.mod_lt _ (by norm_num)), ih _⟩

lemma natToDigitsRevAux_foldr :
    ∀ fuel n, n ≤ fuel →
      (natToDigitsRevAux fuel n).foldr (fun c a => 10 * a + digitVal c) 0 = n := by
  intro fuel
  induction fuel with
  | zero => intro n h; interval_cases n; rfl
  | succ f ih =>
    intro n h
    cases n with
    | zero => rfl
    | succ m =>
      have hd : (m + 1) / 10 < m + 1 := Nat.div_lt_self (Nat.succ_pos m) (by norm_num)
      have hle : (m + 1) / 10 ≤ f := by omega
      simp only [natToDigitsRevAux, List.foldr_cons, ih _ hle,
        digitVal_digitChar (Nat.mod_lt _ (show (0:Nat) < 10 by norm_num))]
      exact Nat.div_add_mod (m + 1) 10

lemma natToDigitsRevAux_ne_nil {fuel n : Nat} (h0 : 0 < n) (hle : n ≤ fuel) :
    natToDigitsRevAux fuel n ≠ [] := by
  cases fuel with
  | zero => omega
  | succ f =>
    cases n with
    | zero => omega
    | succ m => simp [natToDigitsRevAux]

lemma natDigits_all_digits (n : Nat) : (natDigits n).all Char.isDigit = true := by
  unfold natDigits
  split
  · rfl
  · rw [List.all_reverse]
    exact natToDigitsRevAux_all_digits n n

lemma natDigits_ne_nil (n : Nat) : natDigits n ≠ [] := by
  unfold natDigits
  split
  · simp
  · simp only [ne_eq, List.reverse_eq_nil_iff]
    exact natToDigitsRevAux_ne_nil (by omega) le_rfl

lemma digitsToNat_natDigits (n : Nat) : digitsToNat (natDigits n) = some n := by
  by_cases h0 : n = 0
  · subst h0; decide
  · have hne : natDigits n ≠ [] := natDigits_ne_nil n
    have hall : (natDigits n).all Char.isDigit = true := natDigits_all_digits n
    unfold digitsToNat
    rw [if_pos ⟨hne, hall⟩]
    have hrev : natDigits n = (natToDigitsRevAux n n).reverse := by
      unfold natDigits; rw [if_neg h0]
    rw [hrev, List.foldl_reverse]
    exact congrArg some (natToDigitsRevAux_foldr n n le_rfl)

lemma isDigit_not_space {c : Char} (h : c.isDigit = true) : isSpaceChar c = false := by
  by_contra hs
  have hs' : isSpaceChar c = true := by
    cases hval : isSpaceChar c
    · exact absurd hval hs
    · rfl
  unfold isSpaceChar at hs'
  simp only [Bool.or_eq_true, beq_iff_eq] at hs'
  rcases hs' with ((((h1 | h1) | h1) | h1) | h1) | h1 <;> (subst h1; exact absurd h (by decide))

lemma dropWhile_eq_self_of_head {p : Char → Bool} :
    ∀ l : List Char, (∀ c ∈ l, p c = false) → l.dropWhile p = l := by
  intro l h
  cases l with
  | nil => rfl
  | cons c cs =>
    rw [List.dropWhile_cons_of_neg]
    simp [h c (List.mem_cons_self c cs)]

lemma stripBoth_eq_self {l : List Char} (h : ∀ c ∈ l, isSpaceChar c = false) :
    stripBoth l = l := by
  unfold stripBoth stripL stripR
  rw [dropWhile_eq_self_of_head l h,
      dropWhile_eq_self_of_head l.reverse (fun c hc => h c (List.mem_reverse.mp hc)),
      List.reverse_reverse]

lemma all_digits_mem {l : List Char} (hall : l.all Char.isDigit = true) :
    ∀ c ∈ l, c.isDigit = true := by
  intro c hc
  exact List.all_eq_true.mp hall c hc

/-- Parsing inverts printing for nonnegative integers: int(str(n)) = n. -/
lemma pyIntOfString_pyStrOfNat (n : Nat) : pyIntOfString (pyStrOfNat n) = some (n : Int) := by
  have hall := natDigits_all_digits n
  have hmem := all_digits_mem hall
  have hstrip : stripBoth (natDigits n) = natDigits n :=
    stripBoth_eq_self (fun c hc => isDigit_not_space (hmem c hc))
  unfold pyIntOfString pyStrOfNat
  have htl : (String.mk (natDigits n)).toList = natDigits n := rfl
  rw [htl, hstrip]
  obtain ⟨c, rest, hcr⟩ : ∃ c rest, natDigits n = c :: rest := by
    cases hd : natDigits n with
    | nil => exact absurd hd (natDigits_ne_nil n)
    | cons c rest => exact ⟨c, rest, rfl⟩
  rw [hcr]
  have hc : c.isDigit = true := hmem c (by rw [hcr]; exact List.mem_cons_self c rest)
  have hcm : c ≠ '-' := by intro he; subst he; exact absurd hc (by decide)
  have hcp : c ≠ '+' := by intro he; subst he; exact absurd hc (by decide)
  dsimp only
  rw [if_neg hcm, if_neg hcp, ← hcr, digitsToNat_natDigits]
  rfl

lemma pyIntKey_pyStrOfNat (n : Nat) : pyIntKey (pyStrOfNat n) = (n : Int) := by
  unfold pyIntKey
  rw [pyIntOfString_pyStrOfNat]
  rfl

lemma pyStrOfNat_injective : Function.Injective pyStrOfNat := by
  intro a b h
  have := pyIntOfString_pyStrOfNat a
  rw [h, pyIntOfString_pyStrOfNat b] at this
  exact Int.ofNat.inj (Option.some.inj this).symm

/-! ## JSON values and the persisted state document -/

/-- A JSON value as decoded by json.load: null, booleans, integers, strings,
arrays and objects (objects as association lists in document order, matching
insertion-ordered Python dicts).  JSON floats are not modelled; no claim
involves them. -/
inductive PyVal where
  | pNone
  | pBool (b : Bool)
  | pInt (n : Int)
  | pStr (s : String)
  | pList (vs : List PyVal)
  | pDict (kvs : List (String × PyVal))

def squote : String := String.mk [Char.ofNat 39]

def joinComma (l : List String) : String := String.intercalate ", " l

/-- Python repr() of a decoded JSON value.  String quoting is the plain
single-quote form; escape sequences inside strings are not modelled, and no
claim relies on the repr of nested containers. -/
def pyRepr : PyVal → String
  | .pNone => "None"
  | .pBool true => "True"
  | .pBool false => "False"
  | .pInt n => pyStrInt n
  | .pStr s => squote ++ s ++ squote
  | .pList vs => "[" ++ joinComma (vs.attach.map (fun x => pyRepr x.1)) ++ "]"
  | .pDict kvs =>
    "\x7b" ++ joinComma (kvs.attach.map (fun x => squote ++ x.1.1 ++ squote ++ ": " ++ pyRepr x.1.2)) ++ "\x7d"
decreasing_by
  · have h := List.sizeOf_lt_of_mem x.2
    simp only [PyVal.pList.sizeOf_spec]
    omega
  · have h := List.sizeOf_lt_of_mem x.2
    have h2 : sizeOf x.1.2 < sizeOf x.1 := by
      obtain ⟨a, b⟩ := x.1
      simp only [Prod.mk.sizeOf_spec]
      omega
    simp only [PyVal.pDict.sizeOf_spec]
    omega

/-- Python str(): a string is returned verbatim, everything else prints as its
repr.  This is the conversion main() applies to every entry of seen_ids. -/
def pyStr : PyVal → String
  | .pStr s => s
  | .pNone => pyRepr .pNone
  | .pBool b => pyRepr (.pBool b)
  | .pInt n => pyRepr (.pInt n)
  | .pList vs => pyRepr (.pList vs)
  | .pDict kvs => pyRepr (.pDict kvs)

lemma pyStr_pStr (s : String) : pyStr (.pStr s) = s := rfl

/-- Outcome of reading and parsing the state file; this is the input space of
load_state (push_news.py lines 41-55):
  absent      - path.exists() is false;
  readFailed  - open or json.load raised OSError or json.JSONDecodeError,
                the two exception classes the except clause lists;
  undecodable - the file bytes are not valid UTF-8 text, so json.load raises
                UnicodeDecodeError, which the except clause does not list;
  content v   - the file parsed as the JSON value v. -/
inductive FileState where
  | absent
  | readFailed
  | undecodable
  | content (v : PyVal)

/-- Lookup in a decoded JSON object (Python dict indexing / the in test). -/
def lookupKV (k : String) : List (String × PyVal) → Option PyVal
  | [] => none
  | (k1, v) :: rest => if k1 = k then some v else lookupKV k rest

/-- Python dict assignment d[k] = v: replace in place if the key exists,
append otherwise. -/
def setKV (k : String) (v : PyVal) : List (String × PyVal) → List (String × PyVal)
  | [] => [(k, v)]
  | (k1, w) :: rest => if k1 = k then (k1, v) :: rest else (k1, w) :: setKV k v rest

def emptyState : List (String × PyVal) := [("seen_ids", PyVal.pList [])]

/-- Model of load_state (lines 41-55).  The result none models an exception
escaping to the caller; it occurs exactly for undecodable bytes, since
UnicodeDecodeError is neither json.JSONDecodeError nor OSError. -/
def load_state : FileState → Option (List (String × PyVal))
  | .absent => some emptyState
  | .readFailed => some emptyState
  | .undecodable => none
  | .content (.pDict kvs) =>
    match lookupKV "seen_ids" kvs with
    | some (.pList _) => some kvs
    | _ => some (setKV "seen_ids" (.pList []) kvs)
  | .content .pNone => some emptyState
  | .content (.pBool _) => some emptyState
  | .content (.pInt _) => some emptyState
  | .content (.pStr _) => some emptyState
  | .content (.pList _) => some emptyState

/-- The value of state.get("seen_ids", []) as a list of JSON values (after
load_state it is always a JSON array). -/
def seenIdsIn (st : List (String × PyVal)) : List PyVal :=
  match lookupKV "seen_ids" st with
  | some (.pList vs) => vs
  | _ => []

/-! ## Python string sets, modelled as duplicate-free lists -/

/-- Adding one element to a set: no-op if present.  A CPython set iterates in
an unspecified order; this model fixes first-insertion order, and every
theorem that depends on order only does so through a sort whose keys are
distinct, where the order of the underlying set is irrelevant. -/
def addToSet (s : List String) (x : String) : List String :=
  if s.contains x then s else s ++ [x]

/-- The set comprehension over a list of strings. -/
def listToSet (l : List String) : List String := l.foldl addToSet []

/-! ## Sorting (Python sorted with key=int, reverse=True) -/

/-- Insert x into a list sorted descending by key, before the first strictly
smaller key.  On distinct keys this reproduces Python's stable descending
sort exactly; equal keys only arise from seen entries whose distinct strings
denote the same integer, where CPython's output order is unspecified anyway
(it depends on set iteration order). -/
def insertDescBy (key : α → Int) (x : α) : List α → List α
  | [] => [x]
  | y :: ys => if key y < key x then x :: y :: ys else y :: insertDescBy key x ys

def sortDescBy (key : α → Int) : List α → List α
  | [] => []
  | x :: xs => insertDescBy key x (sortDescBy key xs)

/-- Model of sorted(seen_ids, key=int, reverse=True) (line 179): the key
function is applied to every element, so a single entry that int() cannot
parse raises ValueError, modelled as none. -/
def sortSeenStrings (l : List String) : Option (List String) :=
  if l.all (fun s => (pyIntOfString s).isSome) = true then
    some (sortDescBy pyIntKey l)
  else none

/-! ## Item extraction (push_news.py lines 64-90) -/

/-- One hyperlink element as delivered by soup.find_all with href required, in
document order: the href attribute, the optional title attribute, and the
visible text computed by get_text with a space separator and stripping. -/
structure Anchor where
  href : String
  titleAttr : Option String
  text : String
deriving DecidableEq

structure NewsItem where
  id : Nat
  title : String
  url : String
deriving DecidableEq

def newsPathChars : List Char := "/zh/news/".toList

def isPre : List Char → List Char → Bool
  | [], _ => true
  | _ :: _, [] => false
  | c :: cs, d :: ds => c == d && isPre cs ds

/-- Model of NEWS_LINK_PATTERN.match on the stripped href: the exact path
/zh/news/ followed by one or more digits, whose decimal value is the id.
(The Python pattern class of digits also matches non-ASCII decimal digits;
only ASCII digits are modelled.) -/
def parseNewsHref (href : List Char) : Option Nat :=
  if isPre newsPathChars href then
    let ds := href.drop newsPathChars.length
    if ds ≠ [] ∧ ds.all Char.isDigit = true then
      some (ds.foldl (fun a c => 10 * a + digitVal c) 0)
    else none
  else none

/-- Python substring containment needle in hay. -/
def containsSub : List Char → List Char → Bool
  | [], needle => needle.isEmpty
  | c :: t, needle => isPre needle (c :: t) || containsSub t needle

/-- The raw candidate title of an anchor: the title attribute if present and
truthy, else the visible text (Python a.get of the title attribute or-else
the text). -/
def rawTitleOf (a : Anchor) : String :=
  match a.titleAttr with
  | some t => if t = "" then a.text else t
  | none => a.text

/-- The two boilerplate substrings that mark navigation links. -/
def noiseTitle (t : String) : Bool :=
  containsSub t.toList "AI资讯".toList || containsSub t.toList "最新资讯".toList

/-- Lines 71-83: the candidate (id, title, url) an anchor contributes, if
any: href must match the news pattern, the normalized title must be nonempty
and free of the boilerplate substrings; the url is the site origin plus the
stripped href. -/
def candidateOf (maxLen : Int) (a : Anchor) : Option (Nat × String × String) :=
  let href := stripBoth a.href.toList
  match parseNewsHref href with
  | none => none
  | some id =>
    let title := normalize_title maxLen (rawTitleOf a)
    if title = "" then none
    else if noiseTitle title then none
    else some (id, title, String.mk ("https://news.aibase.com".toList ++ href))

/-- Python dict assignment latest_by_id[id] = v: replace in place if the key
exists, append otherwise. -/
def upsert (id : Nat) (v : String × String) :
    List (Nat × String × String) → List (Nat × String × String)
  | [] => [(id, v.1, v.2)]
  | (k, t, u) :: rest =>
    if k = id then (k, v.1, v.2) :: rest else (k, t, u) :: upsert id v rest

def lookupNat (id : Nat) : List (Nat × String × String) → Option (String × String)
  | [] => none
  | (k, t, u) :: rest => if k = id then some (t, u) else lookupNat id rest

/-- One iteration of the anchor loop (lines 70-86): keep the candidate when
the id is new or its title is strictly shorter than the stored one. -/
def fetchFold (maxLen : Int) (acc : List (Nat × String × String)) (a : Anchor) :
    List (Nat × String × String) :=
  match candidateOf maxLen a with
  | none => acc
  | some (id, t, u) =>
    match lookupNat id acc with
    | none => upsert id (t, u) acc
    | some (pt, _) => if t.length < pt.length then upsert id (t, u) acc else acc

/-- Model of fetch_news downstream of the HTTP fetch: the anchor list of the
fetched document is the input.  The final sort is by id descending; its keys
(the dict keys) are distinct, so the insertion sort used here coincides with
Python's stable sort. -/
def fetch_news (maxLen : Int) (anchors : List Anchor) : List NewsItem :=
  sortDescBy (fun it => (it.id : Int))
    ((anchors.foldl (fetchFold maxLen) []).map (fun e => ⟨e.1, e.2.1, e.2.2⟩))

/-! ## Delivery client (push_news.py lines 123-136) -/

/-- Outcome of the webhook transport:
  postRaises  - requests.post itself raised;
  status ok b - the remote answered; ok is whether raise_for_status passes
                (2xx/3xx), b the JSON decoding of the body (none when the body
                is not parseable JSON). -/
inductive HttpResp where
  | postRaises
  | status (ok : Bool) (body : Option PyVal)

/-- Python x == 0 for a decoded JSON value: true exactly for the integer 0
and for false, since bool is an int subtype with False == 0. -/
def pyEqZero : PyVal → Bool
  | .pInt n => n == 0
  | .pBool b => !b
  | _ => false

/-- Model of post_to_feishu: true iff the call returns normally, i.e. the
transport call succeeded, the status was a success, the body parsed as JSON,
and the code field compares equal to 0.  (A body that parses to a non-object
makes the attribute access raise, also false.)  The payload itself never
influences the outcome, so it is not threaded through. -/
def post_to_feishu : HttpResp → Bool
  | .postRaises => false
  | .status false _ => false
  | .status true none => false
  | .status true (some (.pDict kvs)) =>
    (match lookupKV "code" kvs with
     | some v => pyEqZero v
     | none => false)
  | .status true (some .pNone) => false
  | .status true (some (.pBool _)) => false
  | .status true (some (.pInt _)) => false
  | .status true (some (.pStr _)) => false
  | .status true (some (.pList _)) => false

/-! ## The run of main() (push_news.py lines 139-182) -/

/-- The configuration read from the environment at import time. -/
structure Config where
  webhook : String
  topN : Int
  maxSeen : Int
  titleMaxLen : Int

/-- Observable outcome of one run: the exit code (none models an uncaught
exception), the items confirmed delivered, and the state file after the
run. -/
structure RunOut where
  exit : Option Nat
  delivered : List NewsItem
  file : FileState

/-- The seen_ids set of strings built on line 150. -/
def seenStringsOf (st : List (String × PyVal)) : List String :=
  listToSet ((seenIdsIn st).map pyStr)

/-- Line 164: the fetched items whose id string is not in the seen set. -/
def newItemsFrom (cfg : Config) (st : List (String × PyVal)) (anchors : List Anchor) :
    List NewsItem :=
  (fetch_news cfg.titleMaxLen anchors).filter
    (fun it => !((seenStringsOf st).contains (pyStrOfNat it.id)))

/-- Lines 177-178: add the delivered ids (as strings) to the seen set. -/
def seenAfterAdd (st : List (String × PyVal)) (selected : List NewsItem) : List String :=
  selected.foldl (fun s it => addToSet s (pyStrOfNat it.id)) (seenStringsOf st)

/-- Lines 179-180: the state document written on success; the sorted seen
list is truncated to MAX_SEEN_IDS and stored under seen_ids (other fields of
the loaded document are preserved). -/
def savedFile (cfg : Config) (st : List (String × PyVal)) (sorted : List String) : FileState :=
  .content (.pDict (setKV "seen_ids"
    (.pList ((pyTake cfg.maxSeen sorted).map PyVal.pStr)) st))

/-- Model of main(): the interchangeable environment is explicit — the state
file before the run, the outcome of the page fetch (none models a raised
exception; otherwise the anchor list of the fetched document), and the
webhook transport outcome.  Exit code none models an uncaught exception
(the ValueError from int() on line 179, or the UnicodeDecodeError from
load_state). -/
def run (cfg : Config) (file : FileState) (fetched : Option (List Anchor))
    (resp : HttpResp) : RunOut :=
  if pyStrip cfg.webhook = "" then ⟨some 1, [], file⟩
  else if cfg.topN ≤ 0 then ⟨some 0, [], file⟩
  else
    match load_state file with
    | none => ⟨none, [], file⟩
    | some st =>
      match fetched with
      | none => ⟨some 1, [], file⟩
      | some anchors =>
        if fetch_news cfg.titleMaxLen anchors = [] then ⟨some 1, [], file⟩
        else if newItemsFrom cfg st anchors = [] then ⟨some 0, [], file⟩
        else if post_to_feishu resp = false then ⟨some 1, [], file⟩
        else
          match sortSeenStrings (seenAfterAdd st (pyTake cfg.topN (newItemsFrom cfg st anchors))) with
          | none => ⟨none, pyTake cfg.topN (newItemsFrom cfg st anchors), file⟩
          | some sorted =>
            ⟨some 0, pyTake cfg.topN (newItemsFrom cfg st anchors), savedFile cfg st sorted⟩

/-! ## Generic lemmas about the modelled operations -/

lemma contains_iff_mem {l : List String} {x : String} : l.contains x = true ↔ x ∈ l := by
  simp [List.contains, List.elem_iff]

lemma perm_insertDescBy (key : α → Int) (x : α) (l : List α) :
    (insertDescBy key x l).Perm (x :: l) := by
  induction l with
  | nil => exact List.Perm.refl _
  | cons y ys ih =>
    unfold insertDescBy
    by_cases hk : key y < key x
    · rw [if_pos hk]
    · rw [if_neg hk]
      exact (ih.cons y).trans (List.Perm.swap x y ys)

lemma perm_sortDescBy (key : α → Int) (l : List α) : (sortDescBy key l).Perm l := by
  induction l with
  | nil => exact List.Perm.refl _
  | cons x xs ih =>
    exact (perm_insertDescBy key x (sortDescBy key xs)).trans (ih.cons x)

lemma mem_insertDescBy {key : α → Int} {x b : α} {l : List α} :
    b ∈ insertDescBy key x l ↔ b = x ∨ b ∈ l := by
  rw [(perm_insertDescBy key x l).mem_iff, List.mem_cons]

lemma pairwise_insertDescBy {key : α → Int} {x : α} {l : List α}
    (h : l.Pairwise (fun a b => key b ≤ key a)) :
    (insertDescBy key x l).Pairwise (fun a b => key b ≤ key a) := by
  induction l with
  | nil => simp [insertDescBy]
  | cons y ys ih =>
    rw [List.pairwise_cons] at h
    obtain ⟨hy, hys⟩ := h
    unfold insertDescBy
    by_cases hk : key y < key x
    · rw [if_pos hk]
      refine List.Pairwise.cons (fun b hb => ?_) (List.Pairwise.cons hy hys)
      rcases List.mem_cons.mp hb with rfl | hb
      · exact le_of_lt hk
      · exact le_trans (hy b hb) (le_of_lt hk)
    · rw [if_neg hk]
      refine List.Pairwise.cons (fun b hb => ?_) (ih hys)
      rcases mem_insertDescBy.mp hb with rfl | hb2
      · exact le_of_not_lt hk
      · exact hy b hb2

lemma pairwise_sortDescBy (key : α → Int) (l : List α) :
    (sortDescBy key l).Pairwise (fun a b => key b ≤ key a) := by
  induction l with
  | nil => exact List.Pairwise.nil
  | cons x xs ih => exact pairwise_insertDescBy ih

lemma pairwise_gt_of_ge_nodup {key : α → Int} {l : List α}
    (hge : l.Pairwise (fun a b => key b ≤ key a)) (hnd : (l.map key).Nodup) :
    l.Pairwise (fun a b => key b < key a) := by
  rw [List.Nodup, List.pairwise_map] at hnd
  exact (hge.and hnd).imp (fun h => lt_of_le_of_ne h.1 (Ne.symm h.2))

lemma mem_addToSet {s : List String} {x y : String} :
    y ∈ addToSet s x ↔ y ∈ s ∨ y = x := by
  unfold addToSet
  by_cases hc : s.contains x
  · rw [if_pos hc]
    constructor
    · exact Or.inl
    · rintro (h | rfl)
      · exact h
      · exact contains_iff_mem.mp hc
  · rw [if_neg hc]
    simp [List.mem_append]

lemma nodup_addToSet {s : List String} {x : String} (h : s.Nodup) :
    (addToSet s x).Nodup := by
  unfold addToSet
  by_cases hc : s.contains x
  · rwa [if_pos hc]
  · rw [if_neg hc]
    refine List.Nodup.append h (List.nodup_singleton x) ?_
    intro a ha hb
    rw [List.mem_singleton] at hb
    subst hb
    exact hc (contains_iff_mem.mpr ha)

lemma addToSet_of_nodup_not_mem {s : List String} {x : String}
    (h : ¬ x ∈ s) : addToSet s x = s ++ [x] := by
  unfold addToSet
  rw [if_neg (fun hc => h (contains_iff_mem.mp hc))]

lemma addToSet_of_mem {s : List String} {x : String} (h : x ∈ s) : addToSet s x = s := by
  unfold addToSet
  rw [if_pos (contains_iff_mem.mpr h)]

lemma mem_foldl_addToSet {l : List String} :
    ∀ {y : String} {s : List String}, y ∈ List.foldl addToSet s l ↔ y ∈ s ∨ y ∈ l := by
  induction l with
  | nil => intro y s; simp
  | cons a as ih =>
    intro y s
    rw [List.foldl_cons, ih, mem_addToSet]
    constructor
    · rintro ((h | rfl) | h)
      · exact Or.inl h
      · exact Or.inr (List.mem_cons_self _ _)
      · exact Or.inr (List.mem_cons_of_mem _ h)
    · rintro (h | h)
      · exact Or.inl (Or.inl h)
      · rcases List.mem_cons.mp h with rfl | h
        · exact Or.inl (Or.inr rfl)
        · exact Or.inr h

lemma nodup_foldl_addToSet {l : List String} :
    ∀ {s : List String}, s.Nodup → (List.foldl addToSet s l).Nodup := by
  induction l with
  | nil => intro s h; exact h
  | cons a as ih => intro s h; exact ih (nodup_addToSet h)

lemma length_addToSet_le (s : List String) (x : String) :
    (addToSet s x).length ≤ s.length + 1 := by
  unfold addToSet
  split
  · omega
  · simp

lemma length_foldl_addToSet (l : List String) :
    ∀ s : List String, (List.foldl addToSet s l).length ≤ s.length + l.length := by
  induction l with
  | nil => intro s; simp
  | cons a as ih =>
    intro s
    calc (List.foldl addToSet (addToSet s a) as).length
        ≤ (addToSet s a).length + as.length := ih _
      _ ≤ s.length + 1 + as.length := by
          have := length_addToSet_le s a; omega
      _ = s.length + (a :: as).length := by simp [Nat.add_comm, Nat.add_assoc, Nat.add_left_comm]

lemma foldl_addToSet_of_nodup {l : List String} :
    ∀ {s : List String}, (s ++ l).Nodup → List.foldl addToSet s l = s ++ l := by
  induction l with
  | nil => intro s _; simp
  | cons a as ih =>
    intro s h
    have hnotmem : ¬ a ∈ s := by
      intro hmem
      have := List.disjoint_of_nodup_append h
      exact this hmem (List.mem_cons_self a as)
    rw [List.foldl_cons, addToSet_of_nodup_not_mem hnotmem]
    have h2 : ((s ++ [a]) ++ as).Nodup := by
      simpa [List.append_assoc] using h
    rw [ih h2, List.append_assoc]
    rfl

lemma listToSet_eq_self {l : List String} (h : l.Nodup) : listToSet l = l := by
  unfold listToSet
  have := foldl_addToSet_of_nodup (s := []) (l := l) (by simpa using h)
  simpa using this

lemma mem_listToSet {l : List String} {y : String} : y ∈ listToSet l ↔ y ∈ l := by
  unfold listToSet
  rw [mem_foldl_addToSet]
  simp

lemma nodup_listToSet (l : List String) : (listToSet l).Nodup :=
  nodup_foldl_addToSet List.nodup_nil

lemma pyTake_of_nonneg {n : Int} (h : 0 ≤ n) (l : List α) :
    pyTake n l = l.take n.toNat := by
  unfold pyTake
  rw [if_pos h]

lemma pyTake_sublist (n : Int) (l : List α) : (pyTake n l).Sublist l := by
  unfold pyTake
  split <;> exact List.take_sublist _ _

lemma pyTake_subset (n : Int) (l : List α) : ∀ y ∈ pyTake n l, y ∈ l :=
  fun _ hy => (pyTake_sublist n l).subset hy

lemma length_pyTake_le_of_nonneg {n : Int} (h : 0 ≤ n) (l : List α) :
    (pyTake n l).length ≤ n.toNat := by
  rw [pyTake_of_nonneg h]
  exact List.length_take_le _ _

lemma pyTake_eq_self_of_le {n : Int} (hn : 0 ≤ n) {l : List α}
    (h : l.length ≤ n.toNat) : pyTake n l = l := by
  rw [pyTake_of_nonneg hn]
  exact List.take_of_length_le h

lemma pyTake_map {n : Int} (f : α → β) (l : List α) :
    pyTake n (l.map f) = (pyTake n l).map f := by
  unfold pyTake
  rw [List.length_map]
  split <;> rw [List.map_take]

lemma pyTake_nonempty {n : Int} (hn : 0 < n) {l : List α} (hl : l ≠ []) :
    pyTake n l ≠ [] := by
  rw [pyTake_of_nonneg (le_of_lt hn)]
  cases l with
  | nil => exact absurd rfl hl
  | cons a as =>
    have : n.toNat ≠ 0 := by omega
    cases hnn : n.toNat with
    | zero => exact absurd hnn this
    | succ m => simp [List.take]

lemma lookupKV_setKV_self (k : String) (v : PyVal) :
    ∀ st, lookupKV k (setKV k v st) = some v := by
  intro st
  induction st with
  | nil => simp [setKV, lookupKV]
  | cons kv rest ih =>
    obtain ⟨k1, w⟩ := kv
    unfold setKV
    by_cases hk : k1 = k
    · rw [if_pos hk]
      unfold lookupKV
      rw [if_pos hk]
    · rw [if_neg hk]
      unfold lookupKV
      rw [if_neg hk]
      exact ih

lemma seenIdsIn_savedFile (vs : List PyVal)
    (st : List (String × PyVal)) :
    seenIdsIn (setKV "seen_ids" (.pList vs) st) = vs := by
  unfold seenIdsIn
  rw [lookupKV_setKV_self]

/-! ## Characterizations of the run -/

/-- When every guard up to the delivery passes, the run is determined by the
delivery outcome and the final sort. -/
lemma run_eq_of_guards (cfg : Config) (file : FileState) (anchors : List Anchor)
    (resp : HttpResp) (st : List (String × PyVal))
    (hw : ¬ pyStrip cfg.webhook = "") (ht : ¬ cfg.topN ≤ 0)
    (hload : load_state file = some st)
    (hfetch : ¬ fetch_news cfg.titleMaxLen anchors = [])
    (hnew : ¬ newItemsFrom cfg st anchors = []) :
    run cfg file (some anchors) resp =
      if post_to_feishu resp = false then ⟨some 1, [], file⟩
      else
        match sortSeenStrings (seenAfterAdd st (pyTake cfg.topN (newItemsFrom cfg st anchors))) with
        | none => ⟨none, pyTake cfg.topN (newItemsFrom cfg st anchors), file⟩
        | some sorted =>
          ⟨some 0, pyTake cfg.topN (newItemsFrom cfg st anchors), savedFile cfg st sorted⟩ := by
  unfold run
  rw [if_neg hw, if_neg ht, hload]
  dsimp only
  rw [if_neg hfetch, if_neg hnew]

/-- Inversion: if a run reports anything as delivered, every guard passed,
the delivery succeeded, and the delivered batch is the selected batch. -/
lemma run_delivered_inversion (cfg : Config) (file : FileState)
    (fetched : Option (List Anchor)) (resp : HttpResp)
    (h : (run cfg file fetched resp).delivered ≠ []) :
    ¬ pyStrip cfg.webhook = "" ∧ ¬ cfg.topN ≤ 0 ∧
    ∃ st anchors, load_state file = some st ∧ fetched = some anchors ∧
      fetch_news cfg.titleMaxLen anchors ≠ [] ∧ newItemsFrom cfg st anchors ≠ [] ∧
      post_to_feishu resp = true ∧
      (run cfg file fetched resp).delivered = pyTake cfg.topN (newItemsFrom cfg st anchors) := by
  by_cases hw : pyStrip cfg.webhook = ""
  · exfalso; apply h; unfold run; rw [if_pos hw]
  by_cases ht : cfg.topN ≤ 0
  · exfalso; apply h; unfold run; rw [if_neg hw, if_pos ht]
  cases hload : load_state file with
  | none => exfalso; apply h; unfold run; rw [if_neg hw, if_neg ht, hload]
  | some st =>
    cases fetched with
    | none => exfalso; apply h; unfold run; rw [if_neg hw, if_neg ht, hload]
    | some anchors =>
      by_cases hfetch : fetch_news cfg.titleMaxLen anchors = []
      · exfalso; apply h
        unfold run
        rw [if_neg hw, if_neg ht, hload]
        dsimp only
        rw [if_pos hfetch]
      by_cases hnew : newItemsFrom cfg st anchors = []
      · exfalso; apply h
        unfold run
        rw [if_neg hw, if_neg ht, hload]
        dsimp only
        rw [if_neg hfetch, if_pos hnew]
      by_cases hpost : post_to_feishu resp = false
      · exfalso; apply h
        rw [run_eq_of_guards cfg file anchors resp st hw ht hload hfetch hnew, if_pos hpost]
      have hpost' : post_to_feishu resp = true := by
        cases hv : post_to_feishu resp
        · exact absurd hv hpost
        · rfl
      refine ⟨hw, ht, st, anchors, rfl, rfl, hfetch, hnew, hpost', ?_⟩
      rw [run_eq_of_guards cfg file anchors resp st hw ht hload hfetch hnew, if_neg hpost]
      cases hs : sortSeenStrings (seenAfterAdd st (pyTake cfg.topN (newItemsFrom cfg st anchors))) <;> rfl

/-- Inversion for a fully successful, state-saving run. -/
lemma run_saved_inversion (cfg : Config) (file : FileState)
    (fetched : Option (List Anchor)) (resp : HttpResp)
    (hdel : (run cfg file fetched resp).delivered ≠ [])
    (hexit : (run cfg file fetched resp).exit = some 0) :
    ¬ pyStrip cfg.webhook = "" ∧ ¬ cfg.topN ≤ 0 ∧
    ∃ st anchors sorted, load_state file = some st ∧ fetched = some anchors ∧
      fetch_news cfg.titleMaxLen anchors ≠ [] ∧ newItemsFrom cfg st anchors ≠ [] ∧
      post_to_feishu resp = true ∧
      sortSeenStrings (seenAfterAdd st (pyTake cfg.topN (newItemsFrom cfg st anchors))) = some sorted ∧
      (run cfg file fetched resp).delivered = pyTake cfg.topN (newItemsFrom cfg st anchors) ∧
      (run cfg file fetched resp).file = savedFile cfg st sorted := by
  obtain ⟨hw, ht, st, anchors, hload, rfl, hfetch, hnew, hpost, hdeq⟩ :=
    run_delivered_inversion cfg file fetched resp hdel
  have hrun := run_eq_of_guards cfg file anchors resp st hw ht hload hfetch hnew
  rw [if_neg (by rw [hpost]; exact fun hc => Bool.noConfusion hc)] at hrun
  cases hs : sortSeenStrings (seenAfterAdd st (pyTake cfg.topN (newItemsFrom cfg st anchors))) with
  | none =>
    exfalso
    rw [hs] at hrun
    rw [hrun] at hexit
    exact Option.noConfusion hexit
  | some sorted =>
    rw [hs] at hrun
    exact ⟨hw, ht, st, anchors, sorted, hload, rfl, hfetch, hnew, hpost, hs, hdeq,
      by rw [hrun]⟩

/-! ## Claim C1: failed delivery leaves the state untouched and exits 1 -/

/-- The delivery failure conditions enumerated by the claim: the transport
call raises, the remote returns a non-success status, the body is not JSON,
or the acknowledgement object carries an integer code field other than 0. -/
def deliveryFails (resp : HttpResp) : Prop :=
  resp = .postRaises ∨
  (∃ b, resp = .status false b) ∨
  resp = .status true none ∨
  (∃ kvs n, resp = .status true (some (.pDict kvs)) ∧
    lookupKV "code" kvs = some (.pInt n) ∧ n ≠ 0)

lemma post_to_feishu_false_of_fails {resp : HttpResp} (h : deliveryFails resp) :
    post_to_feishu resp = false := by
  rcases h with rfl | ⟨b, rfl⟩ | rfl | ⟨kvs, n, rfl, hlk, hn⟩
  · rfl
  · rfl
  · rfl
  · dsimp only [post_to_feishu]
    rw [hlk]
    dsimp only [pyEqZero]
    exact beq_eq_false_iff_ne.mpr hn

/-- C1: if the webhook delivery fails in any of the enumerated ways on a run
that reaches the delivery step, the run exits with code 1, nothing counts as
delivered, and the persisted state document is exactly the document that was
there before the run. -/
theorem delivery_failure_preserves_state
    (cfg : Config) (file : FileState) (anchors : List Anchor) (resp : HttpResp)
    (st : List (String × PyVal))
    (hw : pyStrip cfg.webhook ≠ "") (ht : 0 < cfg.topN)
    (hload : load_state file = some st)
    (hfetch : fetch_news cfg.titleMaxLen anchors ≠ [])
    (hnew : newItemsFrom cfg st anchors ≠ [])
    (hfail : deliveryFails resp) :
    run cfg file (some anchors) resp = ⟨some 1, [], file⟩ := by
  have hpost : post_to_feishu resp = false := post_to_feishu_false_of_fails hfail
  rw [run_eq_of_guards cfg file anchors resp st hw (by omega) hload hfetch hnew,
    if_pos hpost]

/-- Witness for C1 at a concrete run: one unseen item, transport failure. -/
theorem delivery_failure_preserves_state_witness :
    run ⟨"w", 5, 5000, 46⟩ .absent (some [⟨"/zh/news/1", some "T", ""⟩]) .postRaises =
      ⟨some 1, [], .absent⟩ :=
  delivery_failure_preserves_state ⟨"w", 5, 5000, 46⟩ .absent
    [⟨"/zh/news/1", some "T", ""⟩] .postRaises emptyState
    (by decide) (by decide) rfl (by decide) (by decide) (Or.inl rfl)

/-! ## Claim C8: load_state error handling -/

/-- C8 (divergence witness): load_state substitutes the empty state for a
missing file, for OSError and json.JSONDecodeError, for a non-object
document, for an object without seen_ids and for a non-list seen_ids; but a
state file whose bytes are not valid UTF-8 makes json.load raise
UnicodeDecodeError, which the except clause of load_state does not catch, so
the error escapes to main and the run aborts before fetching with an uncaught
exception, contradicting the claim that loading never raises to its
caller. -/
theorem load_state_error_cases :
    load_state .absent = some emptyState ∧
    load_state .readFailed = some emptyState ∧
    load_state (.content (.pList [.pInt 3])) = some emptyState ∧
    load_state (.content (.pStr "x")) = some emptyState ∧
    load_state (.content (.pDict [("other", .pInt 1)])) =
      some [("other", .pInt 1), ("seen_ids", .pList [])] ∧
    load_state (.content (.pDict [("seen_ids", .pInt 7)])) =
      some [("seen_ids", .pList [])] ∧
    load_state .undecodable = none ∧
    (run ⟨"w", 5, 5000, 46⟩ .undecodable (some [⟨"/zh/news/1", some "T", ""⟩]) .postRaises).exit
      = none ∧
    (run ⟨"w", 5, 5000, 46⟩ .undecodable (some [⟨"/zh/news/1", some "T", ""⟩]) .postRaises).file
      = .undecodable :=
  ⟨rfl, rfl, rfl, rfl, rfl, rfl, rfl, rfl, rfl⟩

lemma seenAfterAdd_eq (st : List (String × PyVal)) (sel : List NewsItem) :
    seenAfterAdd st sel =
      List.foldl addToSet (seenStringsOf st) (sel.map (fun it => pyStrOfNat it.id)) := by
  unfold seenAfterAdd
  rw [List.foldl_map]

/-! ## Concrete objects shared by the example runs -/

def wcfg : Config := ⟨"w", 5, 5000, 46⟩

def okResp : HttpResp := .status true (some (.pDict [("code", .pInt 0)]))

def ancN (i : Nat) : Anchor := ⟨"/zh/news/" ++ toString i, some ("N" ++ toString i), ""⟩

/-! ## Claim C10: seen membership compares string forms, not numeric values -/

/-- C10: the selection filter compares str(id) against the string forms of the
stored seen entries, so a stored entry whose string form differs from the
decimal form of an extracted id never blocks that item, even when it denotes
the same integer; concretely, with stored entry "0123" (whose int value is
123) the item with id 123 is still delivered, and the run succeeds. -/
theorem seen_membership_is_string_equality :
    (∀ (cfg : Config) (st : List (String × PyVal)) (anchors : List Anchor) (it : NewsItem),
        it ∈ fetch_news cfg.titleMaxLen anchors →
        (∀ v ∈ seenIdsIn st, pyStr v ≠ pyStrOfNat it.id) →
        it ∈ newItemsFrom cfg st anchors) ∧
    pyIntOfString "0123" = some 123 ∧
    (run wcfg (.content (.pDict [("seen_ids", .pList [.pStr "0123"])]))
        (some [⟨"/zh/news/123", some "T", ""⟩]) okResp).delivered =
      [⟨123, "T", "https://news.aibase.com/zh/news/123"⟩] ∧
    (run wcfg (.content (.pDict [("seen_ids", .pList [.pStr "0123"])]))
        (some [⟨"/zh/news/123", some "T", ""⟩]) okResp).exit = some 0 := by
  refine ⟨?_, rfl, rfl, rfl⟩
  intro cfg st anchors it hmem hne
  unfold newItemsFrom
  rw [List.mem_filter]
  refine ⟨hmem, ?_⟩
  cases hc : (seenStringsOf st).contains (pyStrOfNat it.id)
  · rfl
  · exfalso
    have hmem2 : pyStrOfNat it.id ∈ seenStringsOf st := contains_iff_mem.mp hc
    unfold seenStringsOf at hmem2
    rw [mem_listToSet] at hmem2
    obtain ⟨v, hv, heq⟩ := List.mem_map.mp hmem2
    exact hne v hv heq

/-- Witness for C10: the item with id 123 passes the filter although the
stored entry "0123" denotes the integer 123. -/
theorem seen_membership_is_string_equality_witness :
    (⟨123, "T", "https://news.aibase.com/zh/news/123"⟩ : NewsItem) ∈
      newItemsFrom wcfg [("seen_ids", PyVal.pList [.pStr "0123"])]
        [⟨"/zh/news/123", some "T", ""⟩] :=
  seen_membership_is_string_equality.1 wcfg
    [("seen_ids", PyVal.pList [.pStr "0123"])]
    [⟨"/zh/news/123", some "T", ""⟩]
    ⟨123, "T", "https://news.aibase.com/zh/news/123"⟩
    (by decide)
    (by
      intro v hv
      have hv' : v = PyVal.pStr "0123" := List.mem_singleton.mp hv
      subst hv'
      decide)

/-! ## Claim C9: an unparseable stored seen value crashes the run after delivery -/

/-- C9: a well-formed state object whose seen_ids list is a JSON array is
returned by load_state unchanged, whatever the array contains; and when some
stored value's string form cannot be parsed by int(), a run that reaches a
successful delivery then crashes with an uncaught error at the state update:
the exit is an uncaught exception, something was delivered, and the state
file is never written. -/
theorem unparseable_seen_value_crashes_after_delivery :
    (∀ (kvs : List (String × PyVal)) (vs : List PyVal),
        lookupKV "seen_ids" kvs = some (.pList vs) →
        load_state (.content (.pDict kvs)) = some kvs) ∧
    (∀ (cfg : Config) (file : FileState) (st : List (String × PyVal))
        (anchors : List Anchor) (resp : HttpResp) (v : PyVal),
        load_state file = some st → v ∈ seenIdsIn st →
        pyIntOfString (pyStr v) = none →
        pyStrip cfg.webhook ≠ "" → 0 < cfg.topN →
        fetch_news cfg.titleMaxLen anchors ≠ [] →
        newItemsFrom cfg st anchors ≠ [] →
        post_to_feishu resp = true →
        (run cfg file (some anchors) resp).exit = none ∧
        (run cfg file (some anchors) resp).delivered ≠ [] ∧
        (run cfg file (some anchors) resp).file = file) := by
  constructor
  · intro kvs vs hlk
    dsimp only [load_state]
    rw [hlk]
  · intro cfg file st anchors resp v hload hv hbad hw ht hfetch hnew hpost
    have hmemseen : pyStr v ∈ seenStringsOf st := by
      unfold seenStringsOf
      rw [mem_listToSet]
      exact List.mem_map_of_mem pyStr hv
    have hmem2 : pyStr v ∈ seenAfterAdd st (pyTake cfg.topN (newItemsFrom cfg st anchors)) := by
      rw [seenAfterAdd_eq]
      exact mem_foldl_addToSet.mpr (Or.inl hmemseen)
    have hsort : sortSeenStrings
        (seenAfterAdd st (pyTake cfg.topN (newItemsFrom cfg st anchors))) = none := by
      unfold sortSeenStrings
      rw [if_neg]
      intro hall
      have hs := List.all_eq_true.mp hall _ hmem2
      rw [hbad] at hs
      exact Bool.noConfusion hs
    have hrun := run_eq_of_guards cfg file anchors resp st hw (by omega) hload hfetch hnew
    rw [if_neg (by rw [hpost]; exact fun hc => Bool.noConfusion hc), hsort] at hrun
    rw [hrun]
    exact ⟨rfl, pyTake_nonempty ht hnew, rfl⟩

/-- Witness for C9: stored seen_ids contains the string "abc"; the run with
one fetched item and a successful post delivers the item, crashes, and leaves
the file untouched. -/
theorem unparseable_seen_value_crashes_after_delivery_witness :
    load_state (.content (.pDict [("seen_ids", PyVal.pList [.pStr "abc"])])) =
      some [("seen_ids", PyVal.pList [.pStr "abc"])] ∧
    (run wcfg (.content (.pDict [("seen_ids", .pList [.pStr "abc"])]))
        (some [⟨"/zh/news/123", some "T", ""⟩]) okResp).exit = none ∧
    (run wcfg (.content (.pDict [("seen_ids", .pList [.pStr "abc"])]))
        (some [⟨"/zh/news/123", some "T", ""⟩]) okResp).delivered ≠ [] ∧
    (run wcfg (.content (.pDict [("seen_ids", .pList [.pStr "abc"])]))
        (some [⟨"/zh/news/123", some "T", ""⟩]) okResp).file =
      .content (.pDict [("seen_ids", .pList [.pStr "abc"])]) := by
  refine ⟨unparseable_seen_value_crashes_after_delivery.1 _ [.pStr "abc"] rfl, ?_⟩
  have h := unparseable_seen_value_crashes_after_delivery.2 wcfg
    (.content (.pDict [("seen_ids", .pList [.pStr "abc"])]))
    [("seen_ids", PyVal.pList [.pStr "abc"])]
    [⟨"/zh/news/123", some "T", ""⟩] okResp (.pStr "abc")
    rfl (List.mem_singleton.mpr rfl) rfl (by decide) (by decide) (by decide) (by decide) rfl
  exact ⟨h.1, h.2.1, h.2.2⟩

/-! ## Claim C5: the selector filters, preserves order and truncates -/

/-- C5: whatever a run delivers is a sublist of the extracted item list (so
the descending-by-id order is preserved), contains only items whose id string
is not in the seen set, and has at most TOP_N elements; in the spec's
end-to-end scenario (empty prior state, ids 100-107, TOP_N = 5) exactly the
items 107,106,105,104,103 are delivered in that order and the saved state
holds exactly those five ids, descending. -/
theorem selection_filters_orders_truncates :
    (∀ (cfg : Config) (file : FileState) (fetched : Option (List Anchor)) (resp : HttpResp)
        (st : List (String × PyVal)) (anchors : List Anchor),
        load_state file = some st → fetched = some anchors →
        (run cfg file fetched resp).delivered.Sublist (fetch_news cfg.titleMaxLen anchors) ∧
        (∀ it ∈ (run cfg file fetched resp).delivered,
            (seenStringsOf st).contains (pyStrOfNat it.id) = false) ∧
        (run cfg file fetched resp).delivered.length ≤ cfg.topN.toNat) ∧
    (run wcfg .absent
        (some [ancN 100, ancN 101, ancN 102, ancN 103, ancN 104, ancN 105, ancN 106, ancN 107])
        okResp).delivered =
      [⟨107, "N107", "https://news.aibase.com/zh/news/107"⟩,
       ⟨106, "N106", "https://news.aibase.com/zh/news/106"⟩,
       ⟨105, "N105", "https://news.aibase.com/zh/news/105"⟩,
       ⟨104, "N104", "https://news.aibase.com/zh/news/104"⟩,
       ⟨103, "N103", "https://news.aibase.com/zh/news/103"⟩] ∧
    (run wcfg .absent
        (some [ancN 100, ancN 101, ancN 102, ancN 103, ancN 104, ancN 105, ancN 106, ancN 107])
        okResp).file =
      .content (.pDict [("seen_ids",
        .pList [.pStr "107", .pStr "106", .pStr "105", .pStr "104", .pStr "103"])]) ∧
    (run wcfg .absent
        (some [ancN 100, ancN 101, ancN 102, ancN 103, ancN 104, ancN 105, ancN 106, ancN 107])
        okResp).exit = some 0 := by
  refine ⟨?_, rfl, rfl, rfl⟩
  intro cfg file fetched resp st anchors hload hf
  by_cases hdel : (run cfg file fetched resp).delivered = []
  · rw [hdel]
    exact ⟨List.nil_sublist _, fun it hit => absurd hit (List.not_mem_nil it), by simp⟩
  · obtain ⟨hw, ht, st2, anchors2, hload2, hf2, hfetch, hnew, hpost, hdeq⟩ :=
      run_delivered_inversion cfg file fetched resp hdel
    have hst : st2 = st := by
      rw [hload] at hload2
      exact (Option.some.inj hload2).symm
    have han : anchors2 = anchors := by
      rw [hf] at hf2
      exact (Option.some.inj hf2).symm
    subst hst han
    rw [hdeq]
    refine ⟨?_, ?_, ?_⟩
    · exact (pyTake_sublist _ _).trans (List.filter_sublist _)
    · intro it hit
      have hmem := pyTake_subset _ _ _ hit
      have := (List.mem_filter.mp hmem).2
      rwa [Bool.not_eq_true'] at this
    · exact length_pyTake_le_of_nonneg (by omega) _

/-- Witness for C5: the general selector facts at the concrete scenario run. -/
theorem selection_filters_orders_truncates_witness :
    (run wcfg .absent
        (some [ancN 100, ancN 101, ancN 102, ancN 103, ancN 104, ancN 105, ancN 106, ancN 107])
        okResp).delivered.Sublist
      (fetch_news wcfg.titleMaxLen
        [ancN 100, ancN 101, ancN 102, ancN 103, ancN 104, ancN 105, ancN 106, ancN 107]) ∧
    (∀ it ∈ (run wcfg .absent
        (some [ancN 100, ancN 101, ancN 102, ancN 103, ancN 104, ancN 105, ancN 106, ancN 107])
        okResp).delivered,
      (seenStringsOf emptyState).contains (pyStrOfNat it.id) = false) ∧
    (run wcfg .absent
        (some [ancN 100, ancN 101, ancN 102, ancN 103, ancN 104, ancN 105, ancN 106, ancN 107])
        okResp).delivered.length ≤ wcfg.topN.toNat :=
  selection_filters_orders_truncates.1 wcfg .absent
    (some [ancN 100, ancN 101, ancN 102, ancN 103, ancN 104, ancN 105, ancN 106, ancN 107])
    okResp emptyState
    [ancN 100, ancN 101, ancN 102, ancN 103, ancN 104, ancN 105, ancN 106, ancN 107]
    rfl rfl

/-! ## Claim C3: idempotence of a second run -/

/-- C3 counterexample: a successful, state-saving first run after which the
second run with the identical fetched list still delivers.  With two unseen
items and TOP_N = 1 the first run delivers and saves only id 2, so the second
run selects and delivers id 1: the claim's second-run selection is not
empty. -/
theorem second_run_delivers_again_counterexample :
    (run ⟨"w", 1, 5000, 46⟩ .absent (some [ancN 1, ancN 2]) okResp).exit = some 0 ∧
    (run ⟨"w", 1, 5000, 46⟩ .absent (some [ancN 1, ancN 2]) okResp).delivered =
      [⟨2, "N2", "https://news.aibase.com/zh/news/2"⟩] ∧
    (run ⟨"w", 1, 5000, 46⟩
        (run ⟨"w", 1, 5000, 46⟩ .absent (some [ancN 1, ancN 2]) okResp).file
        (some [ancN 1, ancN 2]) okResp).delivered =
      [⟨1, "N1", "https://news.aibase.com/zh/news/1"⟩] :=
  ⟨rfl, rfl, rfl⟩

lemma sortSeenStrings_some {l sorted : List String}
    (h : sortSeenStrings l = some sorted) : sorted = sortDescBy pyIntKey l := by
  unfold sortSeenStrings at h
  by_cases hall : l.all (fun s => (pyIntOfString s).isSome) = true
  · rw [if_pos hall] at h
    exact (Option.some.inj h).symm
  · rw [if_neg hall] at h
    exact Option.noConfusion h

lemma load_state_savedFile (cfg : Config) (st : List (String × PyVal))
    (sorted : List String) :
    load_state (savedFile cfg st sorted) =
      some (setKV "seen_ids" (.pList ((pyTake cfg.maxSeen sorted).map PyVal.pStr)) st) := by
  unfold savedFile load_state
  dsimp only
  rw [lookupKV_setKV_self]

lemma map_pyStr_map_pStr (l : List String) : (l.map PyVal.pStr).map pyStr = l := by
  rw [List.map_map]
  exact List.map_id l

/-- C3 (amended): idempotence holds for a successful run that clears the whole
backlog within the cap: if the first run saves state, the number of unseen
items is at most TOP_N (so all of them are delivered) and the prior seen-set
size plus the backlog size stays within MAX_SEEN_IDS (so no retained id is
truncated away), then a second run over the identical fetched list selects
nothing and delivers nothing, exiting 0. -/
theorem second_run_empty_when_batch_covers
    (cfg : Config) (file : FileState) (anchors : List Anchor) (resp resp2 : HttpResp)
    (st : List (String × PyVal))
    (hload : load_state file = some st)
    (hdel : (run cfg file (some anchors) resp).delivered ≠ [])
    (hexit : (run cfg file (some anchors) resp).exit = some 0)
    (hcap0 : 0 ≤ cfg.maxSeen)
    (hcover : (newItemsFrom cfg st anchors).length ≤ cfg.topN.toNat)
    (hcap : (seenStringsOf st).length + (newItemsFrom cfg st anchors).length
              ≤ cfg.maxSeen.toNat) :
    (∃ st2, load_state ((run cfg file (some anchors) resp).file) = some st2 ∧
        newItemsFrom cfg st2 anchors = []) ∧
    (run cfg ((run cfg file (some anchors) resp).file) (some anchors) resp2).delivered = [] ∧
    (run cfg ((run cfg file (some anchors) resp).file) (some anchors) resp2).exit = some 0 := by
  obtain ⟨hw, ht, st2, anchors2, sorted, hload2, hf2, hfetch, hnew, hpost, hsorted, hdeq, hfeq⟩ :=
    run_saved_inversion cfg file (some anchors) resp hdel hexit
  have hst : st = st2 := by
    rw [hload] at hload2
    exact Option.some.inj hload2
  have han : anchors = anchors2 := Option.some.inj hf2
  subst hst
  subst han
  have htop : (0 : Int) ≤ cfg.topN := by omega
  have hsel : pyTake cfg.topN (newItemsFrom cfg st anchors) = newItemsFrom cfg st anchors :=
    pyTake_eq_self_of_le htop hcover
  rw [hsel] at hsorted
  have hsorteq : sorted = sortDescBy pyIntKey (seenAfterAdd st (newItemsFrom cfg st anchors)) :=
    sortSeenStrings_some hsorted
  have hperm : (sortDescBy pyIntKey (seenAfterAdd st (newItemsFrom cfg st anchors))).Perm
      (seenAfterAdd st (newItemsFrom cfg st anchors)) := perm_sortDescBy _ _
  have hlen : sorted.length ≤ cfg.maxSeen.toNat := by
    rw [hsorteq, hperm.length_eq, seenAfterAdd_eq]
    calc (List.foldl addToSet (seenStringsOf st)
            ((newItemsFrom cfg st anchors).map (fun it => pyStrOfNat it.id))).length
        ≤ (seenStringsOf st).length
            + ((newItemsFrom cfg st anchors).map (fun it => pyStrOfNat it.id)).length :=
          length_foldl_addToSet _ _
      _ = (seenStringsOf st).length + (newItemsFrom cfg st anchors).length := by
          rw [List.length_map]
      _ ≤ cfg.maxSeen.toNat := hcap
  have htrunc : pyTake cfg.maxSeen sorted = sorted := pyTake_eq_self_of_le hcap0 hlen
  have hload3 : load_state ((run cfg file (some anchors) resp).file) =
      some (setKV "seen_ids" (.pList (sorted.map PyVal.pStr)) st) := by
    rw [hfeq, load_state_savedFile, htrunc]
  have hnodup2 : (seenAfterAdd st (newItemsFrom cfg st anchors)).Nodup := by
    rw [seenAfterAdd_eq]
    exact nodup_foldl_addToSet (nodup_listToSet _)
  have hsortnodup : sorted.Nodup := by
    rw [hsorteq]
    exact hperm.nodup_iff.mpr hnodup2
  have hseen3 : seenStringsOf (setKV "seen_ids" (.pList (sorted.map PyVal.pStr)) st) = sorted := by
    unfold seenStringsOf
    rw [seenIdsIn_savedFile, map_pyStr_map_pStr]
    exact listToSet_eq_self hsortnodup
  have hallseen : ∀ it ∈ fetch_news cfg.titleMaxLen anchors, pyStrOfNat it.id ∈ sorted := by
    intro it hit
    rw [hsorteq, hperm.mem_iff, seenAfterAdd_eq]
    cases hc : (seenStringsOf st).contains (pyStrOfNat it.id) with
    | true => exact mem_foldl_addToSet.mpr (Or.inl (contains_iff_mem.mp hc))
    | false =>
      have hmemnew : it ∈ newItemsFrom cfg st anchors := by
        refine List.mem_filter.mpr ⟨hit, ?_⟩
        show (!((seenStringsOf st).contains (pyStrOfNat it.id))) = true
        rw [hc]
        rfl
      exact mem_foldl_addToSet.mpr
        (Or.inr (List.mem_map_of_mem (fun it => pyStrOfNat it.id) hmemnew))
  have hnew3 : newItemsFrom cfg (setKV "seen_ids" (.pList (sorted.map PyVal.pStr)) st)
      anchors = [] := by
    unfold newItemsFrom
    rw [List.filter_eq_nil_iff]
    intro it hit hcontra
    have hctrue : (seenStringsOf (setKV "seen_ids" (.pList (sorted.map PyVal.pStr)) st)).contains
        (pyStrOfNat it.id) = true := by
      rw [hseen3]
      exact contains_iff_mem.mpr (hallseen it hit)
    rw [hctrue] at hcontra
    exact Bool.noConfusion hcontra
  have hload4 : load_state (savedFile cfg st sorted) =
      some (setKV "seen_ids" (.pList (sorted.map PyVal.pStr)) st) := by
    rw [load_state_savedFile, htrunc]
  refine ⟨⟨_, hload3, hnew3⟩, ?_, ?_⟩ <;>
  · rw [hfeq]
    unfold run
    rw [if_neg hw, if_neg ht, hload4]
    dsimp only
    rw [if_neg hfetch, if_pos hnew3]

/-- Witness for the amended C3: two unseen items, TOP_N = 5 covers the whole
backlog, the cap is far away, and the second run delivers nothing. -/
theorem second_run_empty_when_batch_covers_witness :
    (∃ st2, load_state ((run wcfg .absent (some [ancN 1, ancN 2]) okResp).file) = some st2 ∧
        newItemsFrom wcfg st2 [ancN 1, ancN 2] = []) ∧
    (run wcfg ((run wcfg .absent (some [ancN 1, ancN 2]) okResp).file)
        (some [ancN 1, ancN 2]) okResp).delivered = [] ∧
    (run wcfg ((run wcfg .absent (some [ancN 1, ancN 2]) okResp).file)
        (some [ancN 1, ancN 2]) okResp).exit = some 0 :=
  second_run_empty_when_batch_covers wcfg .absent [ancN 1, ancN 2] okResp okResp
    emptyState rfl (by decide) (by decide) (by decide) (by decide) (by decide)

/-! ## Claim C6: extractor output strictly descending, no duplicate ids -/

lemma mem_keys_upsert {id b : Nat} {v : String × String} :
    ∀ m : List (Nat × String × String),
      b ∈ (upsert id v m).map (fun e => e.1) ↔ b ∈ m.map (fun e => e.1) ∨ b = id := by
  intro m
  induction m with
  | nil => simp [upsert]
  | cons e rest ih =>
    obtain ⟨k, t, u⟩ := e
    unfold upsert
    by_cases hk : k = id
    · rw [if_pos hk]
      subst hk
      simp only [List.map_cons, List.mem_cons]
      tauto
    · rw [if_neg hk]
      simp only [List.map_cons, List.mem_cons, ih]
      tauto

lemma nodup_keys_upsert {id : Nat} {v : String × String} :
    ∀ m : List (Nat × String × String),
      (m.map (fun e => e.1)).Nodup → ((upsert id v m).map (fun e => e.1)).Nodup := by
  intro m
  induction m with
  | nil => intro _; simp [upsert]
  | cons e rest ih =>
    obtain ⟨k, t, u⟩ := e
    intro hnd
    rw [List.map_cons, List.nodup_cons] at hnd
    obtain ⟨hk1, hk2⟩ := hnd
    unfold upsert
    by_cases hk : k = id
    · subst hk
      rw [if_pos rfl, List.map_cons, List.nodup_cons]
      exact ⟨hk1, hk2⟩
    · rw [if_neg hk, List.map_cons, List.nodup_cons]
      refine ⟨?_, ih hk2⟩
      intro hmem
      rcases (mem_keys_upsert _).mp hmem with h | rfl
      · exact hk1 h
      · exact hk (rfl)

lemma nodup_keys_fetchFold (maxLen : Int) :
    ∀ (anchors : List Anchor) (acc : List (Nat × String × String)),
      (acc.map (fun e => e.1)).Nodup →
      ((anchors.foldl (fetchFold maxLen) acc).map (fun e => e.1)).Nodup := by
  intro anchors
  induction anchors with
  | nil => intro acc h; exact h
  | cons a as ih =>
    intro acc h
    rw [List.foldl_cons]
    refine ih _ ?_
    unfold fetchFold
    cases candidateOf maxLen a with
    | none => exact h
    | some c =>
      obtain ⟨id, t, u⟩ := c
      dsimp only
      cases lookupNat id acc with
      | none => exact nodup_keys_upsert acc h
      | some p =>
        dsimp only
        split
        · exact nodup_keys_upsert acc h
        · exact h

/-- C6: for every anchor list and every title length configuration, the
extractor's output is sorted strictly descending by id, so in particular it
contains at most one item per id. -/
theorem fetch_news_sorted_strict_desc :
    ∀ (maxLen : Int) (anchors : List Anchor),
      (fetch_news maxLen anchors).Pairwise (fun a b => b.id < a.id) ∧
      ((fetch_news maxLen anchors).map (fun it => it.id)).Nodup := by
  intro maxLen anchors
  have hkeys : ((anchors.foldl (fetchFold maxLen) []).map (fun e => e.1)).Nodup :=
    nodup_keys_fetchFold maxLen anchors [] List.nodup_nil
  have hids0 : (((anchors.foldl (fetchFold maxLen) []).map
        (fun e => (⟨e.1, e.2.1, e.2.2⟩ : NewsItem))).map (fun it => it.id)) =
      (anchors.foldl (fetchFold maxLen) []).map (fun e => e.1) := by
    rw [List.map_map]
    rfl
  have hfd : fetch_news maxLen anchors = sortDescBy (fun it => (it.id : Int))
      ((anchors.foldl (fetchFold maxLen) []).map (fun e => (⟨e.1, e.2.1, e.2.2⟩ : NewsItem))) :=
    rfl
  have hperm := perm_sortDescBy (fun it => (it.id : Int))
      ((anchors.foldl (fetchFold maxLen) []).map (fun e => (⟨e.1, e.2.1, e.2.2⟩ : NewsItem)))
  have hids_nodup : ((fetch_news maxLen anchors).map (fun it => it.id)).Nodup := by
    rw [hfd]
    exact ((hperm.map (fun it => it.id)).nodup_iff).mpr (by rw [hids0]; exact hkeys)
  have hge : (fetch_news maxLen anchors).Pairwise
      (fun a b => ((b.id : Nat) : Int) ≤ ((a.id : Nat) : Int)) := by
    rw [hfd]
    exact pairwise_sortDescBy _ _
  have hkeysInt : ((fetch_news maxLen anchors).map (fun it => ((it.id : Nat) : Int))).Nodup := by
    have hmm : (fetch_news maxLen anchors).map (fun it => ((it.id : Nat) : Int)) =
        ((fetch_news maxLen anchors).map (fun it => it.id)).map (fun n : Nat => (n : Int)) := by
      rw [List.map_map]
      rfl
    rw [hmm]
    refine hids_nodup.map ?_
    intro a b h
    have h' : (a : Int) = (b : Int) := h
    exact_mod_cast h'
  have hgt := pairwise_gt_of_ge_nodup hge hkeysInt
  exact ⟨hgt.imp (fun h => by exact_mod_cast h), hids_nodup⟩

/-! ## Claim C7: duplicate collapse keeps the first shortest title -/

/-- The surviving candidates a document offers for a given id, in document
order: normalized title and url of every anchor that maps to this id and
passes the emptiness and noise filters. -/
def candidatesFor (maxLen : Int) (anchors : List Anchor) (id : Nat) :
    List (String × String) :=
  anchors.filterMap (fun a =>
    match candidateOf maxLen a with
    | some (i, t, u) => if i = id then some (t, u) else none
    | none => none)

/-- The loop's preference between the stored candidate and a new one: the new
one wins only with a strictly shorter title (line 85). -/
def keepShorter (p c : String × String) : String × String :=
  if c.1.length < p.1.length then c else p

/-- The loop's update of the stored entry for one id when one more candidate
for that id arrives. -/
def chooseCand (o : Option (String × String)) (c : String × String) :
    Option (String × String) :=
  match o with
  | none => some c
  | some p => some (keepShorter p c)

lemma lookupNat_upsert_self (id : Nat) (v : String × String) :
    ∀ m, lookupNat id (upsert id v m) = some v := by
  intro m
  induction m with
  | nil => simp [upsert, lookupNat]
  | cons e rest ih =>
    obtain ⟨k, t, u⟩ := e
    unfold upsert
    by_cases hk : k = id
    · rw [if_pos hk]
      unfold lookupNat
      rw [if_pos hk]
    · rw [if_neg hk]
      unfold lookupNat
      rw [if_neg hk]
      exact ih

lemma lookupNat_upsert_other {id i : Nat} (hne : i ≠ id) (v : String × String) :
    ∀ m, lookupNat id (upsert i v m) = lookupNat id m := by
  intro m
  induction m with
  | nil => simp [upsert, lookupNat, hne]
  | cons e rest ih =>
    obtain ⟨k, t, u⟩ := e
    unfold upsert
    by_cases hk : k = i
    · rw [if_pos hk]
      unfold lookupNat
      rw [hk]
      rw [if_neg hne, if_neg (hk ▸ (hk.symm ▸ hne : k ≠ id))]
    · rw [if_neg hk]
      unfold lookupNat
      by_cases hk2 : k = id
      · rw [if_pos hk2, if_pos hk2]
      · rw [if_neg hk2, if_neg hk2]
        exact ih

/-- The stored entry for an id after the whole anchor loop is the fold of the
loop's preference over that id's candidates in document order. -/
lemma lookupNat_fetchFold (maxLen : Int) (id : Nat) :
    ∀ (anchors : List Anchor) (acc : List (Nat × String × String)),
      lookupNat id (anchors.foldl (fetchFold maxLen) acc) =
        (candidatesFor maxLen anchors id).foldl chooseCand (lookupNat id acc) := by
  intro anchors
  induction anchors with
  | nil => intro acc; rfl
  | cons a as ih =>
    intro acc
    rw [List.foldl_cons]
    unfold candidatesFor
    rw [List.filterMap_cons]
    cases hc : candidateOf maxLen a with
    | none =>
      dsimp only
      have hstep : fetchFold maxLen acc a = acc := by
        unfold fetchFold
        rw [hc]
      rw [hstep]
      exact ih acc
    | some c =>
      obtain ⟨i, t, u⟩ := c
      dsimp only
      by_cases hi : i = id
      · subst hi
        rw [if_pos rfl]
        rw [List.foldl_cons]
        have hstep : lookupNat i (fetchFold maxLen acc a) =
            chooseCand (lookupNat i acc) (t, u) := by
          unfold fetchFold
          rw [hc]
          dsimp only
          cases hl : lookupNat i acc with
          | none =>
            dsimp only [chooseCand]
            rw [lookupNat_upsert_self]
          | some p =>
            obtain ⟨pt, pu⟩ := p
            dsimp only [chooseCand, keepShorter]
            by_cases hlt : t.length < pt.length
            · rw [if_pos hlt, if_pos hlt, lookupNat_upsert_self]
            · rw [if_neg hlt, if_neg hlt, hl]
        rw [ih (fetchFold maxLen acc a), hstep]
        rfl
      · rw [if_neg hi]
        have hstep : lookupNat id (fetchFold maxLen acc a) = lookupNat id acc := by
          unfold fetchFold
          rw [hc]
          dsimp only
          cases lookupNat i acc with
          | none => exact lookupNat_upsert_other hi (t, u) acc
          | some p =>
            dsimp only
            split
            · exact lookupNat_upsert_other hi (t, u) acc
            · rfl
        rw [ih (fetchFold maxLen acc a), hstep]
        rfl

lemma foldl_chooseCand_some :
    ∀ (cs : List (String × String)) (p : String × String),
      cs.foldl chooseCand (some p) = some (cs.foldl keepShorter p) := by
  intro cs
  induction cs with
  | nil => intro p; rfl
  | cons c cs ih =>
    intro p
    rw [List.foldl_cons, List.foldl_cons]
    exact ih (keepShorter p c)

/-- The fold of the preference over p :: cs lands on the first entry of
minimal title length: all earlier entries are strictly longer and no entry is
shorter. -/
lemma foldl_keepShorter_first_min :
    ∀ (cs : List (String × String)) (p : String × String),
      ∃ pre post, p :: cs = pre ++ (cs.foldl keepShorter p) :: post ∧
        (∀ c ∈ pre, (cs.foldl keepShorter p).1.length < c.1.length) ∧
        (∀ c ∈ p :: cs, (cs.foldl keepShorter p).1.length ≤ c.1.length) := by
  intro cs
  induction cs with
  | nil =>
    intro p
    refine ⟨[], [], rfl, fun c hc => absurd hc (List.not_mem_nil c), ?_⟩
    intro c hc
    rw [List.mem_singleton.mp hc]
    exact le_refl _
  | cons d ds ih =>
    intro p
    rw [List.foldl_cons]
    obtain ⟨pre, post, hdec, hpre, hmin⟩ := ih (keepShorter p d)
    by_cases hd : d.1.length < p.1.length
    · have hkp : keepShorter p d = d := by unfold keepShorter; rw [if_pos hd]
      rw [hkp] at hdec hpre hmin ⊢
      refine ⟨p :: pre, post, by rw [List.cons_append, hdec], ?_, ?_⟩
      · intro c hc
        rcases List.mem_cons.mp hc with rfl | hc2
        · exact lt_of_le_of_lt (hmin d (List.mem_cons_self d ds)) hd
        · exact hpre c hc2
      · intro c hc
        rcases List.mem_cons.mp hc with rfl | hc2
        · exact le_of_lt (lt_of_le_of_lt (hmin d (List.mem_cons_self d ds)) hd)
        · exact hmin c hc2
    · have hkp : keepShorter p d = p := by unfold keepShorter; rw [if_neg hd]
      rw [hkp] at hdec hpre hmin ⊢
      cases pre with
      | nil =>
        have hx : ds.foldl keepShorter p = p := by
          have hh := congrArg (fun l => l.headI) hdec
          simpa using hh.symm
        refine ⟨[], d :: ds, by rw [hx]; rfl, fun c hc => absurd hc (List.not_mem_nil c), ?_⟩
        intro c hc
        rcases List.mem_cons.mp hc with rfl | hc2
        · rw [hx]
        · rcases List.mem_cons.mp hc2 with rfl | hc3
          · rw [hx]
            omega
          · exact hmin c (List.mem_cons_of_mem p hc3)
      | cons q pre2 =>
        rw [List.cons_append] at hdec
        have hqp : p = q := (List.cons.inj hdec).1
        have hds : ds = pre2 ++ (ds.foldl keepShorter p) :: post := (List.cons.inj hdec).2
        have hpq : ∀ b ∈ p :: pre2, (ds.foldl keepShorter p).1.length < b.1.length := by
          intro b hb
          rcases List.mem_cons.mp hb with rfl | hb2
          · have h := hpre q (List.mem_cons_self q pre2)
            rw [← hqp] at h
            exact h
          · exact hpre b (List.mem_cons_of_mem q hb2)
        refine ⟨p :: d :: pre2, post, ?_, ?_, ?_⟩
        · rw [List.cons_append, List.cons_append, ← hds]
        · intro c hc
          rcases List.mem_cons.mp hc with rfl | hc2
          · exact hpq c (List.mem_cons_self c pre2)
          · rcases List.mem_cons.mp hc2 with rfl | hc3
            · exact lt_of_lt_of_le (hpq p (List.mem_cons_self p pre2)) (by omega)
            · exact hpq c (List.mem_cons_of_mem p hc3)
        · intro c hc
          rcases List.mem_cons.mp hc with rfl | hc2
          · exact hmin c (List.mem_cons_self c ds)
          · rcases List.mem_cons.mp hc2 with rfl | hc3
            · exact le_trans (le_of_lt (hpq p (List.mem_cons_self p pre2))) (by omega)
            · exact hmin c (List.mem_cons_of_mem p hc3)

lemma lookupNat_of_mem_nodup {m : List (Nat × String × String)}
    (hnd : (m.map (fun e => e.1)).Nodup) {e : Nat × String × String} (he : e ∈ m) :
    lookupNat e.1 m = some e.2 := by
  induction m with
  | nil => exact absurd he (List.not_mem_nil e)
  | cons f rest ih =>
    obtain ⟨k, t, u⟩ := f
    rw [List.map_cons, List.nodup_cons] at hnd
    obtain ⟨hk1, hk2⟩ := hnd
    rcases List.mem_cons.mp he with rfl | he2
    · unfold lookupNat
      rw [if_pos rfl]
    · unfold lookupNat
      by_cases hk : k = e.1
      · exfalso
        apply hk1
        rw [hk]
        exact List.mem_map_of_mem (fun x => x.1) he2
      · rw [if_neg hk]
        exact ih hk2 he2

/-- C7: every item the extractor outputs carries the title and url of the
first candidate with the strictly shortest normalized title among all the
document's surviving candidates for that id: every earlier candidate is
strictly longer (so ties keep the first occurrence) and no candidate is
shorter. -/
theorem duplicate_collapse_keeps_first_shortest :
    ∀ (maxLen : Int) (anchors : List Anchor) (it : NewsItem),
      it ∈ fetch_news maxLen anchors →
      ∃ pre post,
        candidatesFor maxLen anchors it.id = pre ++ (it.title, it.url) :: post ∧
        (∀ c ∈ pre, it.title.length < c.1.length) ∧
        (∀ c ∈ candidatesFor maxLen anchors it.id, it.title.length ≤ c.1.length) := by
  intro maxLen anchors it hmem
  have hperm := perm_sortDescBy (fun x => (x.id : Int))
      ((anchors.foldl (fetchFold maxLen) []).map (fun e => (⟨e.1, e.2.1, e.2.2⟩ : NewsItem)))
  have hmem0 : it ∈ (anchors.foldl (fetchFold maxLen) []).map
      (fun e => (⟨e.1, e.2.1, e.2.2⟩ : NewsItem)) := hperm.mem_iff.mp hmem
  obtain ⟨e, he, heq⟩ := List.mem_map.mp hmem0
  subst heq
  have hnd : ((anchors.foldl (fetchFold maxLen) []).map (fun e => e.1)).Nodup :=
    nodup_keys_fetchFold maxLen anchors [] List.nodup_nil
  have hlk : lookupNat e.1 (anchors.foldl (fetchFold maxLen) []) = some e.2 :=
    lookupNat_of_mem_nodup hnd he
  rw [lookupNat_fetchFold maxLen e.1 anchors []] at hlk
  dsimp only
  cases hcs : candidatesFor maxLen anchors e.1 with
  | nil =>
    exfalso
    rw [hcs] at hlk
    exact Option.noConfusion hlk
  | cons c cs =>
    rw [hcs, List.foldl_cons] at hlk
    have hstart : chooseCand (lookupNat e.1 ([] : List (Nat × String × String))) c = some c := rfl
    rw [hstart, foldl_chooseCand_some cs c] at hlk
    have hx : cs.foldl keepShorter c = e.2 := Option.some.inj hlk
    obtain ⟨pre, post, hdec, hpre, hmin⟩ := foldl_keepShorter_first_min cs c
    rw [hx] at hdec hpre hmin
    exact ⟨pre, post, hdec, hpre, hmin⟩

/-- Witness for C7: the spec's tie-break example — two candidates for one id
titled Short and a longer variant; the extractor keeps Short. -/
theorem duplicate_collapse_keeps_first_shortest_witness :
    ∃ pre post,
      candidatesFor 46
        [⟨"/zh/news/5", some "Short and much longer variant", ""⟩,
         ⟨"/zh/news/5", some "Short", ""⟩]
        (⟨5, "Short", "https://news.aibase.com/zh/news/5"⟩ : NewsItem).id =
        pre ++ ((⟨5, "Short", "https://news.aibase.com/zh/news/5"⟩ : NewsItem).title,
                (⟨5, "Short", "https://news.aibase.com/zh/news/5"⟩ : NewsItem).url) :: post ∧
      (∀ c ∈ pre,
        (⟨5, "Short", "https://news.aibase.com/zh/news/5"⟩ : NewsItem).title.length < c.1.length) ∧
      (∀ c ∈ candidatesFor 46
          [⟨"/zh/news/5", some "Short and much longer variant", ""⟩,
           ⟨"/zh/news/5", some "Short", ""⟩]
          (⟨5, "Short", "https://news.aibase.com/zh/news/5"⟩ : NewsItem).id,
        (⟨5, "Short", "https://news.aibase.com/zh/news/5"⟩ : NewsItem).title.length ≤ c.1.length) :=
  duplicate_collapse_keeps_first_shortest 46
    [⟨"/zh/news/5", some "Short and much longer variant", ""⟩,
     ⟨"/zh/news/5", some "Short", ""⟩]
    ⟨5, "Short", "https://news.aibase.com/zh/news/5"⟩
    (by decide)

/-! ## Claim C4, part 1: the strictly descending order on the retained ids.

The seen set of a deployment that started empty contains only canonical
decimal strings; sorting them by their int key coincides with sorting their
numeric values.  topOf is that numeric sort: insert each value into a
strictly descending list, dropping duplicates. -/

def insertTop (x : Nat) : List Nat → List Nat
  | [] => [x]
  | y :: ys => if x > y then x :: y :: ys else if x = y then y :: ys else y :: insertTop x ys

def topOf : List Nat → List Nat
  | [] => []
  | x :: xs => insertTop x (topOf xs)

lemma mem_insertTop {x b : Nat} : ∀ {l : List Nat}, b ∈ insertTop x l ↔ b = x ∨ b ∈ l := by
  intro l
  induction l with
  | nil => simp [insertTop]
  | cons y ys ih =>
    unfold insertTop
    by_cases h1 : x > y
    · rw [if_pos h1]
      simp [List.mem_cons]
    · rw [if_neg h1]
      by_cases h2 : x = y
      · rw [if_pos h2]
        subst h2
        simp [List.mem_cons]
      · rw [if_neg h2]
        simp only [List.mem_cons, ih]
        tauto

lemma pairwise_gt_insertTop {x : Nat} :
    ∀ {l : List Nat}, l.Pairwise (fun a b => b < a) → (insertTop x l).Pairwise (fun a b => b < a) := by
  intro l
  induction l with
  | nil => intro _; simp [insertTop]
  | cons y ys ih =>
    intro h
    rw [List.pairwise_cons] at h
    obtain ⟨hy, hys⟩ := h
    unfold insertTop
    by_cases h1 : x > y
    · rw [if_pos h1]
      refine List.Pairwise.cons (fun b hb => ?_) (List.Pairwise.cons hy hys)
      rcases List.mem_cons.mp hb with rfl | hb2
      · exact h1
      · exact lt_trans (hy b hb2) h1
    · rw [if_neg h1]
      by_cases h2 : x = y
      · rw [if_pos h2]
        exact List.Pairwise.cons hy hys
      · rw [if_neg h2]
        refine List.Pairwise.cons (fun b hb => ?_) (ih hys)
        rcases mem_insertTop.mp hb with rfl | hb2
        · omega
        · exact hy b hb2

lemma pairwise_gt_topOf (l : List Nat) : (topOf l).Pairwise (fun a b => b < a) := by
  induction l with
  | nil => exact List.Pairwise.nil
  | cons x xs ih => exact pairwise_gt_insertTop ih

lemma mem_topOf {b : Nat} : ∀ {l : List Nat}, b ∈ topOf l ↔ b ∈ l := by
  intro l
  induction l with
  | nil => simp [topOf]
  | cons x xs ih =>
    unfold topOf
    rw [mem_insertTop, List.mem_cons, ih]

lemma nodup_of_pairwise_gt {l : List Nat} (h : l.Pairwise (fun a b => b < a)) : l.Nodup :=
  h.imp (fun hab => by omega)

lemma nodup_topOf (l : List Nat) : (topOf l).Nodup :=
  nodup_of_pairwise_gt (pairwise_gt_topOf l)

/-- Two strictly descending lists with the same members are equal. -/
lemma sorted_gt_ext :
    ∀ {l l' : List Nat}, l.Pairwise (fun a b => b < a) → l'.Pairwise (fun a b => b < a) →
      (∀ x, x ∈ l ↔ x ∈ l') → l = l' := by
  intro l
  induction l with
  | nil =>
    intro l' _ _ hm
    cases l' with
    | nil => rfl
    | cons y ys => exact absurd ((hm y).mpr (List.mem_cons_self y ys)) (List.not_mem_nil y)
  | cons x xs ih =>
    intro l' hl hl' hm
    cases l' with
    | nil => exact absurd ((hm x).mp (List.mem_cons_self x xs)) (List.not_mem_nil x)
    | cons y ys =>
      rw [List.pairwise_cons] at hl hl'
      obtain ⟨hx, hxs⟩ := hl
      obtain ⟨hy, hys⟩ := hl'
      have hxy : x = y := by
        rcases List.mem_cons.mp ((hm x).mp (List.mem_cons_self x xs)) with h | h
        · exact h
        · rcases List.mem_cons.mp ((hm y).mpr (List.mem_cons_self y ys)) with h2 | h2
          · omega
          · have := hy x h
            have := hx y h2
            omega
      subst hxy
      have htail : ∀ z, z ∈ xs ↔ z ∈ ys := by
        intro z
        constructor
        · intro hz
          have hzx : z < x := hx z hz
          rcases List.mem_cons.mp ((hm z).mp (List.mem_cons_of_mem x hz)) with h | h
          · omega
          · exact h
        · intro hz
          have hzy : z < x := hy z hz
          rcases List.mem_cons.mp ((hm z).mpr (List.mem_cons_of_mem x hz)) with h | h
          · omega
          · exact h
      rw [ih hxs hys htail]

/-- Number of members above x. -/
def countGT (x : Nat) (l : List Nat) : Nat := (l.filter (fun y => decide (x < y))).length

lemma countGT_le_length (x : Nat) (l : List Nat) : countGT x l ≤ l.length :=
  List.length_filter_le _ l

lemma nodup_length_le_of_subset {l' l : List Nat} (hn' : l'.Nodup) (hn : l.Nodup)
    (hsub : ∀ y ∈ l', y ∈ l) : l'.length ≤ l.length := by
  rw [← List.toFinset_card_of_nodup hn', ← List.toFinset_card_of_nodup hn]
  exact Finset.card_le_card (fun y hy => List.mem_toFinset.mpr (hsub y (List.mem_toFinset.mp hy)))

lemma countGT_le_of_subset {x : Nat} {l' l : List Nat} (hn' : l'.Nodup) (hn : l.Nodup)
    (hsub : ∀ y ∈ l', y ∈ l) : countGT x l' ≤ countGT x l := by
  refine nodup_length_le_of_subset (hn'.filter _) (hn.filter _) ?_
  intro y hy
  rw [List.mem_filter] at hy ⊢
  exact ⟨hsub y hy.1, hy.2⟩

/-- Membership in the cap-prefix of a strictly descending list: the member
must have fewer than cap members above it. -/
lemma mem_take_sorted_gt :
    ∀ {l : List Nat} {x n : Nat}, l.Pairwise (fun a b => b < a) →
      (x ∈ l.take n ↔ x ∈ l ∧ countGT x l < n) := by
  intro l
  induction l with
  | nil => intro x n _; simp [countGT]
  | cons a t ih =>
    intro x n h
    rw [List.pairwise_cons] at h
    obtain ⟨ha, ht⟩ := h
    cases n with
    | zero => simp [countGT]
    | succ m =>
      rw [List.take_succ_cons, List.mem_cons, List.mem_cons]
      unfold countGT
      by_cases hxa : x < a
      · rw [List.filter_cons_of_pos (by simpa using hxa)]
        constructor
        · rintro (rfl | hx)
          · omega
          · have := (ih ht).mp hx
            obtain ⟨hmem, hcnt⟩ := this
            refine ⟨Or.inr hmem, ?_⟩
            unfold countGT at hcnt
            simpa using Nat.succ_lt_succ hcnt
        · rintro ⟨hor, hcnt⟩
          rcases hor with rfl | hmem
          · omega
          · right
            refine (ih ht).mpr ⟨hmem, ?_⟩
            unfold countGT
            simp only [List.length_cons] at hcnt
            omega
      · rw [List.filter_cons_of_neg (by simpa using hxa)]
        have hfilt : t.filter (fun y => decide (x < y)) = [] := by
          rw [List.filter_eq_nil_iff]
          intro y hy
          have := ha y hy
          simp only [decide_eq_true_eq]
          omega
        rw [hfilt]
        constructor
        · rintro (rfl | hx)
          · exact ⟨Or.inl rfl, by simp⟩
          · have := (ih ht).mp hx
            exact ⟨Or.inr this.1, by simp⟩
        · rintro ⟨hor, _⟩
          rcases hor with rfl | hmem
          · exact Or.inl rfl
          · have := ha x hmem
            exact absurd this hxa

/-- If at least n members lie above x, every member of the n-prefix of a
strictly descending list lies above x. -/
lemma take_all_gt :
    ∀ {l : List Nat} {x n : Nat}, l.Pairwise (fun a b => b < a) →
      n ≤ countGT x l → ∀ y ∈ l.take n, x < y := by
  intro l
  induction l with
  | nil => intro x n _ _ y hy; simp at hy
  | cons a t ih =>
    intro x n h hcnt y hy
    rw [List.pairwise_cons] at h
    obtain ⟨ha, ht⟩ := h
    cases n with
    | zero => simp at hy
    | succ m =>
      rw [List.take_succ_cons, List.mem_cons] at hy
      by_cases hxa : x < a
      · rcases hy with rfl | hy2
        · exact hxa
        · unfold countGT at hcnt
          rw [List.filter_cons_of_pos (by simpa using hxa)] at hcnt
          refine ih ht ?_ y hy2
          unfold countGT
          simp only [List.length_cons] at hcnt
          omega
      · exfalso
        unfold countGT at hcnt
        rw [List.filter_cons_of_neg (by simpa using hxa)] at hcnt
        have hfilt : t.filter (fun y => decide (x < y)) = [] := by
          rw [List.filter_eq_nil_iff]
          intro z hz
          have := ha z hz
          simp only [decide_eq_true_eq]
          omega
        rw [hfilt] at hcnt
        simp at hcnt

/-- Truncation stability: merging new values into the cap-truncated top of E
and truncating again gives the cap-truncated top of all of E and the new
values.  This is the induction step behind the claim that the retained ids
are always the numerically largest ever added. -/
lemma take_topOf_stable (cap : Nat) (E ds : List Nat) :
    (topOf ((topOf E).take cap ++ ds)).take cap = (topOf (E ++ ds)).take cap := by
  have hT := pairwise_gt_topOf (E ++ ds)
  have hT' := pairwise_gt_topOf ((topOf E).take cap ++ ds)
  have hTE := pairwise_gt_topOf E
  have hndT := nodup_topOf (E ++ ds)
  have hndT' := nodup_topOf ((topOf E).take cap ++ ds)
  have hndTE := nodup_topOf E
  have hsubTE : ∀ y, y ∈ topOf E → y ∈ topOf (E ++ ds) := by
    intro y hy
    rw [mem_topOf] at hy ⊢
    exact List.mem_append.mpr (Or.inl hy)
  have hsubT' : ∀ y, y ∈ topOf ((topOf E).take cap ++ ds) → y ∈ topOf (E ++ ds) := by
    intro y hy
    rw [mem_topOf, List.mem_append] at hy ⊢
    rcases hy with hy | hy
    · exact Or.inl (mem_topOf.mp (List.take_subset _ _ hy))
    · exact Or.inr hy
  refine sorted_gt_ext (List.Pairwise.sublist (List.take_sublist _ _) hT')
    (List.Pairwise.sublist (List.take_sublist _ _) hT) ?_
  intro x
  rw [mem_take_sorted_gt hT', mem_take_sorted_gt hT]
  constructor
  · rintro ⟨hmem, hcnt⟩
    refine ⟨hsubT' x hmem, ?_⟩
    by_contra hge
    push_neg at hge
    have hall : ∀ y ∈ (topOf (E ++ ds)).take cap, x < y ∧ y ∈ topOf ((topOf E).take cap ++ ds) := by
      intro y hy
      have hxy : x < y := take_all_gt hT hge y hy
      have hymem : y ∈ topOf (E ++ ds) := List.take_subset _ _ hy
      have hycnt : countGT y (topOf (E ++ ds)) < cap := ((mem_take_sorted_gt hT).mp hy).2
      refine ⟨hxy, ?_⟩
      rw [mem_topOf, List.mem_append]
      rw [mem_topOf, List.mem_append] at hymem
      rcases hymem with hyE | hyds
      · left
        rw [mem_take_sorted_gt hTE]
        refine ⟨mem_topOf.mpr hyE, ?_⟩
        calc countGT y (topOf E) ≤ countGT y (topOf (E ++ ds)) :=
              countGT_le_of_subset hndTE hndT hsubTE
          _ < cap := hycnt
      · exact Or.inr hyds
    have hlen : ((topOf (E ++ ds)).take cap).length = cap := by
      rw [List.length_take]
      have h1 : cap ≤ countGT x (topOf (E ++ ds)) := hge
      have h2 : countGT x (topOf (E ++ ds)) ≤ (topOf (E ++ ds)).length :=
        countGT_le_length _ _
      omega
    have hsubfil : ∀ y ∈ (topOf (E ++ ds)).take cap,
        y ∈ (topOf ((topOf E).take cap ++ ds)).filter (fun z => decide (x < z)) := by
      intro y hy
      rw [List.mem_filter]
      obtain ⟨hxy, hmem'⟩ := hall y hy
      exact ⟨hmem', by simpa using hxy⟩
    have hle : ((topOf (E ++ ds)).take cap).length ≤
        countGT x (topOf ((topOf E).take cap ++ ds)) :=
      nodup_length_le_of_subset (hndT.sublist (List.take_sublist _ _))
        (hndT'.filter _) hsubfil
    rw [hlen] at hle
    omega
  · rintro ⟨hmem, hcnt⟩
    have hmem' : x ∈ topOf ((topOf E).take cap ++ ds) := by
      rw [mem_topOf, List.mem_append]
      rcases List.mem_append.mp (mem_topOf.mp hmem) with hxE | hxds
      · left
        rw [mem_take_sorted_gt hTE]
        refine ⟨mem_topOf.mpr hxE, ?_⟩
        calc countGT x (topOf E) ≤ countGT x (topOf (E ++ ds)) :=
              countGT_le_of_subset hndTE hndT hsubTE
          _ < cap := hcnt
      · exact Or.inr hxds
    exact ⟨hmem', lt_of_le_of_lt (countGT_le_of_subset hndT' hndT hsubT') hcnt⟩

/-! ## Claim C4, part 2: canonical seen states sort by numeric value -/

lemma insertDescBy_map_pyStrOfNat {x : Nat} :
    ∀ {S : List Nat}, x ∉ S →
      insertDescBy pyIntKey (pyStrOfNat x) (S.map pyStrOfNat) = (insertTop x S).map pyStrOfNat := by
  intro S
  induction S with
  | nil => intro _; rfl
  | cons y ys ih =>
    intro hx
    rw [List.map_cons]
    unfold insertDescBy insertTop
    simp only [pyIntKey_pyStrOfNat]
    by_cases h1 : (y : Int) < (x : Int)
    · rw [if_pos h1, if_pos (show x > y by exact_mod_cast h1), List.map_cons, List.map_cons]
    · rw [if_neg h1, if_neg (show ¬ x > y by exact_mod_cast h1),
        if_neg (show ¬ x = y from fun he => hx (by rw [he]; exact List.mem_cons_self y ys)),
        List.map_cons, ih (fun hm => hx (List.mem_cons_of_mem y hm))]

lemma sortDescBy_map_pyStrOfNat :
    ∀ {S : List Nat}, S.Nodup →
      sortDescBy pyIntKey (S.map pyStrOfNat) = (topOf S).map pyStrOfNat := by
  intro S
  induction S with
  | nil => intro _; rfl
  | cons s S2 ih =>
    intro h
    rw [List.nodup_cons] at h
    rw [List.map_cons]
    show insertDescBy pyIntKey (pyStrOfNat s) (sortDescBy pyIntKey (S2.map pyStrOfNat)) = _
    rw [ih h.2]
    exact insertDescBy_map_pyStrOfNat (fun hm => h.1 (mem_topOf.mp hm))

lemma all_isSome_map_pyStrOfNat (S : List Nat) :
    (S.map pyStrOfNat).all (fun s => (pyIntOfString s).isSome) = true := by
  rw [List.all_eq_true]
  intro s hs
  obtain ⟨n, _, rfl⟩ := List.mem_map.mp hs
  rw [pyIntOfString_pyStrOfNat]
  rfl

lemma sortSeenStrings_canonical {S : List Nat} (h : S.Nodup) :
    sortSeenStrings (S.map pyStrOfNat) = some ((topOf S).map pyStrOfNat) := by
  unfold sortSeenStrings
  rw [if_pos (all_isSome_map_pyStrOfNat S), sortDescBy_map_pyStrOfNat h]

/-- Adding one id to the seen set, at the level of numeric values. -/
def natAdd (l : List Nat) (d : Nat) : List Nat := if d ∈ l then l else l ++ [d]

lemma contains_map_pyStrOfNat {L : List Nat} {d : Nat} :
    (L.map pyStrOfNat).contains (pyStrOfNat d) = true ↔ d ∈ L := by
  rw [contains_iff_mem]
  constructor
  · intro h
    obtain ⟨n, hn, he⟩ := List.mem_map.mp h
    rwa [← pyStrOfNat_injective he]
  · intro h
    exact List.mem_map_of_mem _ h

lemma addToSet_map_pyStrOfNat (L : List Nat) (d : Nat) :
    addToSet (L.map pyStrOfNat) (pyStrOfNat d) = (natAdd L d).map pyStrOfNat := by
  unfold addToSet natAdd
  by_cases h : d ∈ L
  · rw [if_pos (contains_map_pyStrOfNat.mpr h), if_pos h]
  · rw [if_neg (fun hc => h (contains_map_pyStrOfNat.mp hc)), if_neg h, List.map_append]
    rfl

lemma foldl_addToSet_map_pyStrOfNat :
    ∀ (ds L : List Nat),
      List.foldl addToSet (L.map pyStrOfNat) (ds.map pyStrOfNat) =
        (ds.foldl natAdd L).map pyStrOfNat := by
  intro ds
  induction ds with
  | nil => intro L; rfl
  | cons d ds ih =>
    intro L
    rw [List.map_cons, List.foldl_cons, List.foldl_cons, addToSet_map_pyStrOfNat]
    exact ih (natAdd L d)

lemma mem_natAdd {l : List Nat} {d x : Nat} : x ∈ natAdd l d ↔ x ∈ l ∨ x = d := by
  unfold natAdd
  split
  · constructor
    · exact Or.inl
    · rintro (h | rfl)
      · exact h
      · assumption
  · simp [List.mem_append]

lemma nodup_natAdd {l : List Nat} {d : Nat} (h : l.Nodup) : (natAdd l d).Nodup := by
  unfold natAdd
  split
  · exact h
  · refine List.Nodup.append h (List.nodup_singleton d) ?_
    intro a ha hb
    rw [List.mem_singleton] at hb
    subst hb
    exact absurd ha (by assumption)

lemma mem_foldl_natAdd :
    ∀ {ds : List Nat} {x : Nat} {l : List Nat}, x ∈ ds.foldl natAdd l ↔ x ∈ l ∨ x ∈ ds := by
  intro ds
  induction ds with
  | nil => intro x l; simp
  | cons d ds ih =>
    intro x l
    rw [List.foldl_cons, ih, mem_natAdd]
    constructor
    · rintro ((h | rfl) | h)
      · exact Or.inl h
      · exact Or.inr (List.mem_cons_self _ _)
      · exact Or.inr (List.mem_cons_of_mem _ h)
    · rintro (h | h)
      · exact Or.inl (Or.inl h)
      · rcases List.mem_cons.mp h with rfl | h2
        · exact Or.inl (Or.inr rfl)
        · exact Or.inr h2

lemma nodup_foldl_natAdd :
    ∀ {ds l : List Nat}, l.Nodup → (ds.foldl natAdd l).Nodup := by
  intro ds
  induction ds with
  | nil => intro l h; exact h
  | cons d ds ih => intro l h; exact ih (nodup_natAdd h)

/-! ## Claim C4, part 3: the run sequence and its invariant -/

/-- The state file after a sequence of runs, each described by its fetch
outcome and webhook response. -/
def runSeq (cfg : Config) : FileState → List (Option (List Anchor) × HttpResp) → FileState
  | f, [] => f
  | f, s :: rest => runSeq cfg ((run cfg f s.1 s.2).file) rest

/-- All ids delivered over a sequence of runs, in order. -/
def deliveredIdsSeq (cfg : Config) :
    FileState → List (Option (List Anchor) × HttpResp) → List Nat
  | _, [] => []
  | f, s :: rest =>
    ((run cfg f s.1 s.2).delivered.map (fun it => it.id))
      ++ deliveredIdsSeq cfg ((run cfg f s.1 s.2).file) rest

/-- The seen_ids array recorded in a state file. -/
def fileSeenPy : FileState → List PyVal
  | .content (.pDict kvs) => seenIdsIn kvs
  | .content .pNone => []
  | .content (.pBool _) => []
  | .content (.pInt _) => []
  | .content (.pStr _) => []
  | .content (.pList _) => []
  | .absent => []
  | .readFailed => []
  | .undecodable => []

/-- The canonical stored seen list for ever-delivered ids E and cap. -/
def canonVals (cap : Nat) (E : List Nat) : List PyVal :=
  ((topOf E).take cap).map (fun n => PyVal.pStr (pyStrOfNat n))

/-- The canonical state document of a deployment that started empty. -/
def canonState (cap : Nat) (E : List Nat) : List (String × PyVal) :=
  [("seen_ids", PyVal.pList (canonVals cap E))]

/-- Invariant of a deployment that started with no state file: the state file
is absent (and nothing was ever delivered) or holds exactly the cap largest
ever-delivered ids, in strictly descending order, as decimal strings. -/
def InvC4 (cap : Nat) (f : FileState) (E : List Nat) : Prop :=
  (f = .absent ∧ E = []) ∨ f = .content (.pDict (canonState cap E))

lemma lookupKV_singleton (k : String) (v : PyVal) :
    lookupKV k [(k, v)] = some v := by
  unfold lookupKV
  rw [if_pos rfl]

lemma load_InvC4 {cap : Nat} {f : FileState} {E : List Nat} (h : InvC4 cap f E) :
    load_state f = some (canonState cap E) := by
  rcases h with ⟨rfl, rfl⟩ | rfl
  · show some emptyState = _
    unfold emptyState canonState canonVals
    rw [topOf, List.take_nil, List.map_nil]
  · unfold load_state canonState
    dsimp only
    rw [lookupKV_singleton]

/-- A run that delivers nothing never writes the state file. -/
lemma run_file_of_no_delivery (cfg : Config) (f : FileState) (a : Option (List Anchor))
    (r : HttpResp) (h : (run cfg f a r).delivered = []) : (run cfg f a r).file = f := by
  by_cases hw : pyStrip cfg.webhook = ""
  · unfold run; rw [if_pos hw]
  by_cases ht : cfg.topN ≤ 0
  · unfold run; rw [if_neg hw, if_pos ht]
  cases hload : load_state f with
  | none => unfold run; rw [if_neg hw, if_neg ht, hload]
  | some st =>
    cases a with
    | none => unfold run; rw [if_neg hw, if_neg ht, hload]
    | some anchors =>
      by_cases hfetch : fetch_news cfg.titleMaxLen anchors = []
      · unfold run
        rw [if_neg hw, if_neg ht, hload]
        dsimp only
        rw [if_pos hfetch]
      by_cases hnew : newItemsFrom cfg st anchors = []
      · unfold run
        rw [if_neg hw, if_neg ht, hload]
        dsimp only
        rw [if_neg hfetch, if_pos hnew]
      by_cases hpost : post_to_feishu r = false
      · rw [run_eq_of_guards cfg f anchors r st hw ht hload hfetch hnew, if_pos hpost]
      · exfalso
        rw [run_eq_of_guards cfg f anchors r st hw ht hload hfetch hnew, if_neg hpost] at h
        cases hs : sortSeenStrings
            (seenAfterAdd st (pyTake cfg.topN (newItemsFrom cfg st anchors))) with
        | none =>
          rw [hs] at h
          exact pyTake_nonempty (by omega) hnew h
        | some sorted =>
          rw [hs] at h
          exact pyTake_nonempty (by omega) hnew h

lemma InvC4_step (cfg : Config) (hcap : 0 ≤ cfg.maxSeen) {f : FileState} {E : List Nat}
    (hinv : InvC4 cfg.maxSeen.toNat f E) (a : Option (List Anchor)) (r : HttpResp) :
    InvC4 cfg.maxSeen.toNat ((run cfg f a r).file)
      (E ++ ((run cfg f a r).delivered.map (fun it => it.id))) := by
  by_cases hdel : (run cfg f a r).delivered = []
  · rw [hdel, List.map_nil, List.append_nil, run_file_of_no_delivery cfg f a r hdel]
    exact hinv
  · obtain ⟨hw, ht, st, anchors, hload, hfa, hfetch, hnew, hpost, hdeq⟩ :=
      run_delivered_inversion cfg f a r hdel
    subst hfa
    have hload2 := load_InvC4 hinv
    rw [hload] at hload2
    have hst : st = canonState cfg.maxSeen.toNat E := Option.some.inj hload2
    subst hst
    have hLnodup : ((topOf E).take cfg.maxSeen.toNat).Nodup :=
      (nodup_topOf E).sublist (List.take_sublist _ _)
    have hseen : seenStringsOf (canonState cfg.maxSeen.toNat E) =
        ((topOf E).take cfg.maxSeen.toNat).map pyStrOfNat := by
      unfold seenStringsOf seenIdsIn canonState
      rw [lookupKV_singleton]
      unfold canonVals
      rw [List.map_map]
      have hmapped : ((topOf E).take cfg.maxSeen.toNat).map
          (pyStr ∘ fun n => PyVal.pStr (pyStrOfNat n)) =
          ((topOf E).take cfg.maxSeen.toNat).map pyStrOfNat := rfl
      rw [hmapped]
      exact listToSet_eq_self (hLnodup.map pyStrOfNat_injective)
    have hseen2 : seenAfterAdd (canonState cfg.maxSeen.toNat E)
        (pyTake cfg.topN (newItemsFrom cfg (canonState cfg.maxSeen.toNat E) anchors)) =
        (((pyTake cfg.topN (newItemsFrom cfg (canonState cfg.maxSeen.toNat E) anchors)).map
          (fun it => it.id)).foldl natAdd
            ((topOf E).take cfg.maxSeen.toNat)).map pyStrOfNat := by
      rw [seenAfterAdd_eq, hseen]
      have hmm : (pyTake cfg.topN (newItemsFrom cfg (canonState cfg.maxSeen.toNat E) anchors)).map
          (fun it => pyStrOfNat it.id) =
          ((pyTake cfg.topN (newItemsFrom cfg (canonState cfg.maxSeen.toNat E) anchors)).map
            (fun it => it.id)).map pyStrOfNat := by
        rw [List.map_map]
        rfl
      rw [hmm, foldl_addToSet_map_pyStrOfNat]
    have hMnodup : (((pyTake cfg.topN
        (newItemsFrom cfg (canonState cfg.maxSeen.toNat E) anchors)).map
        (fun it => it.id)).foldl natAdd ((topOf E).take cfg.maxSeen.toNat)).Nodup :=
      nodup_foldl_natAdd hLnodup
    have hsort : sortSeenStrings (seenAfterAdd (canonState cfg.maxSeen.toNat E)
        (pyTake cfg.topN (newItemsFrom cfg (canonState cfg.maxSeen.toNat E) anchors))) =
        some ((topOf (((pyTake cfg.topN
          (newItemsFrom cfg (canonState cfg.maxSeen.toNat E) anchors)).map
          (fun it => it.id)).foldl natAdd ((topOf E).take cfg.maxSeen.toNat))).map
            pyStrOfNat) := by
      rw [hseen2]
      exact sortSeenStrings_canonical hMnodup
    have hrun := run_eq_of_guards cfg f anchors r (canonState cfg.maxSeen.toNat E)
      hw ht hload hfetch hnew
    rw [if_neg (by rw [hpost]; exact fun hc => Bool.noConfusion hc), hsort] at hrun
    have hsetkv : ∀ v : PyVal,
        setKV "seen_ids" v (canonState cfg.maxSeen.toNat E) = [("seen_ids", v)] := by
      intro v
      unfold canonState setKV
      rw [if_pos rfl]
    have htopM : topOf (((pyTake cfg.topN
        (newItemsFrom cfg (canonState cfg.maxSeen.toNat E) anchors)).map
        (fun it => it.id)).foldl natAdd ((topOf E).take cfg.maxSeen.toNat)) =
        topOf ((topOf E).take cfg.maxSeen.toNat ++
          (pyTake cfg.topN (newItemsFrom cfg (canonState cfg.maxSeen.toNat E) anchors)).map
            (fun it => it.id)) := by
      refine sorted_gt_ext (pairwise_gt_topOf _) (pairwise_gt_topOf _) ?_
      intro x
      rw [mem_topOf, mem_topOf, mem_foldl_natAdd, List.mem_append]
    have hsave : (pyTake cfg.maxSeen ((topOf (((pyTake cfg.topN
        (newItemsFrom cfg (canonState cfg.maxSeen.toNat E) anchors)).map
        (fun it => it.id)).foldl natAdd
          ((topOf E).take cfg.maxSeen.toNat))).map pyStrOfNat)).map PyVal.pStr =
        canonVals cfg.maxSeen.toNat
          (E ++ (pyTake cfg.topN
            (newItemsFrom cfg (canonState cfg.maxSeen.toNat E) anchors)).map
              (fun it => it.id)) := by
      rw [pyTake_of_nonneg hcap, ← List.map_take, htopM, take_topOf_stable]
      unfold canonVals
      rw [List.map_map]
      rfl
    rw [hrun]
    dsimp only
    right
    unfold savedFile
    rw [hsetkv, hsave]
    rfl

lemma InvC4_runSeq (cfg : Config) (hcap : 0 ≤ cfg.maxSeen) :
    ∀ (steps : List (Option (List Anchor) × HttpResp)) (f : FileState) (E : List Nat),
      InvC4 cfg.maxSeen.toNat f E →
      InvC4 cfg.maxSeen.toNat (runSeq cfg f steps) (E ++ deliveredIdsSeq cfg f steps) := by
  intro steps
  induction steps with
  | nil =>
    intro f E h
    rw [runSeq, deliveredIdsSeq, List.append_nil]
    exact h
  | cons s rest ih =>
    intro f E h
    rw [runSeq, deliveredIdsSeq, ← List.append_assoc]
    exact ih _ _ (InvC4_step cfg hcap h s.1 s.2)

lemma length_topOf_eq_dedup (D : List Nat) : (topOf D).length = D.dedup.length := by
  rw [← List.toFinset_card_of_nodup (nodup_topOf D),
    ← List.toFinset_card_of_nodup (List.nodup_dedup D)]
  congr 1
  ext x
  rw [List.mem_toFinset, List.mem_toFinset, mem_topOf, List.mem_dedup]

/-- C4: whenever a run saves state, the stored seen_ids list has at most
MAX_SEEN_IDS entries and is sorted descending by the numeric value of each
entry (the int() key, not the lexical order); and over any sequence of runs
starting with no state file, the retained entries are exactly the (up to
MAX_SEEN_IDS) numerically largest identifiers ever added to the seen set:
they are decimal strings of a strictly descending list of delivered ids that
dominates every non-retained delivered id, of length min(cap, number of
distinct delivered ids). -/
theorem seen_ids_bounded_sorted_top :
    (∀ (cfg : Config) (file : FileState) (fetched : Option (List Anchor)) (resp : HttpResp),
        0 ≤ cfg.maxSeen →
        (run cfg file fetched resp).exit = some 0 →
        (run cfg file fetched resp).delivered ≠ [] →
        (fileSeenPy ((run cfg file fetched resp).file)).length ≤ cfg.maxSeen.toNat ∧
        (fileSeenPy ((run cfg file fetched resp).file)).Pairwise
          (fun a b => pyIntKey (pyStr b) ≤ pyIntKey (pyStr a))) ∧
    (∀ (cfg : Config) (steps : List (Option (List Anchor) × HttpResp)),
        0 ≤ cfg.maxSeen →
        ∃ L : List Nat,
          fileSeenPy (runSeq cfg .absent steps) =
            L.map (fun n => PyVal.pStr (pyStrOfNat n)) ∧
          L.Pairwise (fun a b => b < a) ∧
          (∀ x ∈ L, x ∈ deliveredIdsSeq cfg .absent steps) ∧
          (∀ x ∈ deliveredIdsSeq cfg .absent steps, x ∉ L → ∀ y ∈ L, x < y) ∧
          L.length = min cfg.maxSeen.toNat
            (deliveredIdsSeq cfg .absent steps).dedup.length) := by
  constructor
  · intro cfg file fetched resp hcap hexit hdel
    obtain ⟨hw, ht, st, anchors, sorted, hload, hfa, hfetch, hnew, hpost, hsorted, hdeq, hfeq⟩ :=
      run_saved_inversion cfg file fetched resp hdel hexit
    rw [hfeq]
    have hfsp : fileSeenPy (savedFile cfg st sorted) =
        (pyTake cfg.maxSeen sorted).map PyVal.pStr := by
      show seenIdsIn
        (setKV "seen_ids" (.pList ((pyTake cfg.maxSeen sorted).map PyVal.pStr)) st) = _
      exact seenIdsIn_savedFile _ _
    rw [hfsp]
    constructor
    · rw [List.length_map]
      exact length_pyTake_le_of_nonneg hcap _
    · have hsorteq := sortSeenStrings_some hsorted
      have hpair : sorted.Pairwise (fun a b => pyIntKey b ≤ pyIntKey a) := by
        rw [hsorteq]
        exact pairwise_sortDescBy _ _
      have htake : (pyTake cfg.maxSeen sorted).Pairwise
          (fun a b => pyIntKey b ≤ pyIntKey a) :=
        List.Pairwise.sublist (pyTake_sublist _ _) hpair
      rw [List.pairwise_map]
      exact htake
  · intro cfg steps hcap
    have hinv := InvC4_runSeq cfg hcap steps .absent [] (Or.inl ⟨rfl, rfl⟩)
    rw [List.nil_append] at hinv
    refine ⟨(topOf (deliveredIdsSeq cfg .absent steps)).take cfg.maxSeen.toNat,
      ?_, ?_, ?_, ?_, ?_⟩
    · rcases hinv with ⟨hf, hD0⟩ | hf
      · rw [hf, hD0]
        show ([] : List PyVal) = _
        rw [topOf, List.take_nil, List.map_nil]
      · rw [hf]
        show seenIdsIn (canonState cfg.maxSeen.toNat (deliveredIdsSeq cfg .absent steps)) = _
        unfold canonState seenIdsIn
        rw [lookupKV_singleton]
        rfl
    · exact List.Pairwise.sublist (List.take_sublist _ _) (pairwise_gt_topOf _)
    · intro x hx
      exact mem_topOf.mp (List.take_subset _ _ hx)
    · intro x hxD hxL y hyL
      have hxT : x ∈ topOf (deliveredIdsSeq cfg .absent steps) := mem_topOf.mpr hxD
      have hpw := pairwise_gt_topOf (deliveredIdsSeq cfg .absent steps)
      rw [← List.take_append_drop cfg.maxSeen.toNat
        (topOf (deliveredIdsSeq cfg .absent steps))] at hpw hxT
      rcases List.mem_append.mp hxT with h | h
      · exact absurd h hxL
      · exact (List.pairwise_append.mp hpw).2.2 y hyL x h
    · rw [List.length_take, length_topOf_eq_dedup]

/-- Witness for C4 at a concrete single-step sequence with two delivered
ids. -/
theorem seen_ids_bounded_sorted_top_witness :
    ∃ L : List Nat,
      fileSeenPy (runSeq wcfg .absent [(some [ancN 1, ancN 2], okResp)]) =
        L.map (fun n => PyVal.pStr (pyStrOfNat n)) ∧
      L.Pairwise (fun a b => b < a) ∧
      (∀ x ∈ L, x ∈ deliveredIdsSeq wcfg .absent [(some [ancN 1, ancN 2], okResp)]) ∧
      (∀ x ∈ deliveredIdsSeq wcfg .absent [(some [ancN 1, ancN 2], okResp)],
        x ∉ L → ∀ y ∈ L, x < y) ∧
      L.length = min wcfg.maxSeen.toNat
        (deliveredIdsSeq wcfg .absent [(some [ancN 1, ancN 2], okResp)]).dedup.length :=
  seen_ids_bounded_sorted_top.2 wcfg [(some [ancN 1, ancN 2], okResp)] (by decide)

end PushNews
